import Mathlib

/-!
Verification of the audio core of the `rhythmic_shapes` repository.

The development shallowly embeds the audio engine (`src/audio/`): the sine
oscillator, envelope table, voice pool with stealing, and the render
callback's sub-block scheduler, together with the note/frequency conversion
utilities from `src/util.rs`.

Machine `f32` arithmetic on sample data is modelled by exact rationals.  The
transcendental pieces of the oscillator (the `sin` function, the `TAU`
constant, and the `note_to_freq` value fed into the oscillator constructor)
are taken as parameters of the model: none of the scheduling, allocation or
envelope properties proved below depend on their values.  `u32`/`usize`/`u64`
values are modelled as `Nat` (with an explicit `% 2^64` where the source
wraps).  Panicking operations (slice indexing, debug-checked `usize`
subtraction, `unimplemented!`) are modelled in an `Except RtPanic` monad.
-/

/-- Kinds of aborts the embedded code can perform.  `fuelOut` is an artifact
of the fuel-based encoding of the two source loops and is proved unreachable
where needed. -/
inductive RtPanic where
  | unimplemented
  | outOfBounds
  | underflow
  | fuelOut
deriving Repr, DecidableEq

/-- Debug-semantics `usize` subtraction: panics on underflow. -/
def checkedSub (a b : Nat) : Except RtPanic Nat :=
  if b ≤ a then Except.ok (a - b) else Except.error RtPanic.underflow

/-- Panicking slice read `l[i]`. -/
def listGetE (l : List ℚ) (i : Nat) : Except RtPanic ℚ :=
  match l[i]? with
  | some x => Except.ok x
  | none => Except.error RtPanic.outOfBounds

/-- Panicking slice write `l[i] = x`. -/
def listSetE (l : List ℚ) (i : Nat) (x : ℚ) : Except RtPanic (List ℚ) :=
  if i < l.length then Except.ok (l.set i x) else Except.error RtPanic.outOfBounds

/-- `MAX_BLOCK_SIZE` from `src/audio/process.rs`. -/
def MAX_BLOCK_SIZE : Nat := 64

/-- `NUM_VOICES` from `src/audio/voice/handler.rs`. -/
def NUM_VOICES : Nat := 16

/-- `u64` modulus used by the wrapping voice-id counter. -/
def U64_MOD : Nat := 2 ^ 64

/-- The sine oscillator state from `src/audio/sine.rs` (`phase` and
`phase_increment` are `f32`, modelled as ℚ). -/
structure SineOsc where
  phase : ℚ
  phase_increment : ℚ
deriving Repr, DecidableEq

/-- `SineOsc::new`: phase 0, increment `freq_hz / sample_rate * TAU`.
`tauQ` models the `f32` constant `TAU`. -/
def SineOsc.new (tauQ : ℚ) (freq_hz sample_rate : ℚ) : SineOsc :=
  { phase := 0, phase_increment := freq_hz / sample_rate * tauQ }

/-- `SineOsc::increment`: add the increment, subtract `TAU` once if the
phase reached it. -/
def SineOsc.increment (tauQ : ℚ) (o : SineOsc) : SineOsc :=
  let phase := o.phase + o.phase_increment
  if tauQ ≤ phase then { o with phase := phase - tauQ } else { o with phase := phase }

/-- `SineOsc::process`: return `sin(phase)` and advance.  `sinf` models
`f32::sin`. -/
def SineOsc.process (sinf : ℚ → ℚ) (tauQ : ℚ) (o : SineOsc) : ℚ × SineOsc :=
  (sinf o.phase, o.increment tauQ)

/-- A voice, from `src/audio/voice/mod.rs` (the `Arc<[f32]>` envelope is a
list of rationals, the shared atomic sample rate a plain rational). -/
structure Voice where
  id : Nat
  note : ℚ
  envelope_data : List ℚ
  envelope_idx : Nat
  sample_rate : ℚ
  oscillator : SineOsc
deriving Repr, DecidableEq

/-- `Voice::envelope_is_finished`: `envelope_idx > envelope_data.len()`. -/
def Voice.envelope_is_finished (v : Voice) : Bool :=
  v.envelope_data.length < v.envelope_idx

/-- The copy loop of `Voice::next_envelope_block`:
`for i in 0..num_iters { block[i] = envelope_data[pos + i] }`.
`i` is the current loop index, the second argument the remaining count. -/
def copyEnvLoop (env : List ℚ) (pos : Nat) : Nat → Nat → List ℚ → Except RtPanic (List ℚ)
  | _, 0, block => Except.ok block
  | i, k + 1, block => do
    let x ← listGetE env (pos + i)
    let b ← listSetE block i x
    copyEnvLoop env pos (i + 1) k b

/-- The zero-fill loop of `Voice::next_envelope_block`:
`for i in 0..excess { block[i] = 0.0 }` (note: the source writes from
index 0, not after the copied prefix). -/
def zeroLoop : Nat → Nat → List ℚ → Except RtPanic (List ℚ)
  | _, 0, block => Except.ok block
  | i, k + 1, block => do
    let b ← listSetE block i 0
    zeroLoop (i + 1) k b

/-- `Voice::next_envelope_block` from `src/audio/voice/mod.rs`. -/
def Voice.next_envelope_block (v : Voice) (block : List ℚ) (block_len : Nat) :
    Except RtPanic (List ℚ × Voice) := do
  let env_len := v.envelope_data.length
  let pos := v.envelope_idx
  let rem ← checkedSub env_len pos
  let num_iters := min rem block_len
  let block1 ← copyEnvLoop v.envelope_data pos 0 num_iters block
  let excess ← checkedSub block_len num_iters
  let block2 ← zeroLoop 0 excess block1
  Except.ok (block2, { v with envelope_idx := pos + num_iters })

/-- `f32 as usize` cast for nonnegative-or-small values: truncation toward
zero, saturating at 0 for negative inputs. -/
def f32ToUsize (q : ℚ) : Nat := (⌊q⌋).toNat

/-- `build_envelope` from `src/audio/voice/handler.rs`:
`(0..num_steps as usize).rev().map(|i| (i as f32 / num_steps) * 0.125)`. -/
def build_envelope (sample_rate envelope_time_secs : ℚ) : List ℚ :=
  let num_steps := sample_rate * envelope_time_secs
  (List.range (f32ToUsize num_steps)).reverse.map
    (fun i : Nat => ((i : ℚ) / num_steps) * 0.125)

/-- `NoteEventData` from `src/audio/voice/note.rs`. -/
structure NoteEventData where
  note : ℚ
deriving Repr, DecidableEq

/-- `NoteEvent` from `src/audio/voice/note.rs` (`timing` is `u32`). -/
inductive NoteEvent where
  | NoteOn (timing : Nat) (data : NoteEventData)
  | NoteOff (timing : Nat) (data : NoteEventData)
deriving Repr, DecidableEq

/-- `NoteEvent::timing`. -/
def NoteEvent.timing : NoteEvent → Nat
  | NoteEvent.NoteOn t _ => t
  | NoteEvent.NoteOff t _ => t

/-- `NoteEvent::note`. -/
def NoteEvent.note : NoteEvent → ℚ
  | NoteEvent.NoteOn _ d => d.note
  | NoteEvent.NoteOff _ d => d.note

/-- `NoteEvent::is_note_on` discriminator (used to state which queues avoid
the `unimplemented!` path). -/
def NoteEvent.isNoteOn : NoteEvent → Bool
  | NoteEvent.NoteOn _ _ => true
  | NoteEvent.NoteOff _ _ => false

/-- `VoiceHandler` from `src/audio/voice/handler.rs`.  The fixed array of
16 slots is a list (its length is carried as a hypothesis where needed). -/
structure VoiceHandler where
  voices : List (Option Voice)
  id_counter : Nat
  sample_rate : ℚ
  envelope_data : List ℚ
deriving Repr, DecidableEq

/-- `VoiceHandler::next_voice_id`: wrapping increment, then return the new
counter value. -/
def VoiceHandler.next_voice_id (vh : VoiceHandler) : VoiceHandler × Nat :=
  let c := (vh.id_counter + 1) % U64_MOD
  ({ vh with id_counter := c }, c)

/-- The id of the voice in a slot.  In the source the stealing branch uses
`unwrap_unchecked()`, justified because it only runs when every slot is
occupied; the `none` case below is therefore never exercised there. -/
def slotId : Option Voice → Nat
  | some v => v.id
  | none => 0

/-- Index of the first minimal element of a list of ids, mirroring Rust's
`Iterator::min_by_key`, which returns the first of equally-minimal
elements. -/
def argminIdx : List Nat → Nat
  | [] => 0
  | [_] => 0
  | x :: y :: xs =>
    let j := argminIdx (y :: xs)
    if (y :: xs).getD j 0 < x then j + 1 else 0

/-- Rust's `Iterator::position`: index of the first element satisfying the
predicate. -/
def position? (p : α → Bool) : List α → Option Nat
  | [] => none
  | x :: xs => if p x then some 0 else (position? p xs).map (· + 1)

/-- `VoiceHandler::start_voice`.  `n2f` models the `f32` function
`note_to_freq` used to set the oscillator frequency. -/
def VoiceHandler.start_voice (tauQ : ℚ) (n2f : ℚ → ℚ) (vh : VoiceHandler) (note : ℚ) :
    VoiceHandler × Voice :=
  let p := vh.next_voice_id
  let vh1 := p.1
  let new_voice : Voice :=
    { id := p.2
      note := note
      envelope_data := vh1.envelope_data
      envelope_idx := 0
      sample_rate := vh1.sample_rate
      oscillator := SineOsc.new tauQ (n2f note) vh1.sample_rate }
  match position? (fun v => v.isNone) vh1.voices with
  | some free_idx =>
    ({ vh1 with voices := vh1.voices.set free_idx (some new_voice) }, new_voice)
  | none =>
    let oldest_idx := argminIdx (vh1.voices.map slotId)
    ({ vh1 with voices := vh1.voices.set oldest_idx (some new_voice) }, new_voice)

/-- `VoiceHandler::kill_active_voices`. -/
def VoiceHandler.kill_active_voices (vh : VoiceHandler) : VoiceHandler :=
  { vh with voices := vh.voices.map (fun _ => none) }

/-- `VoiceHandler::terminate_finished_voices`. -/
def VoiceHandler.terminate_finished_voices (vh : VoiceHandler) : VoiceHandler :=
  { vh with
    voices := vh.voices.map (fun slot =>
      match slot with
      | some v => if v.envelope_is_finished then none else some v
      | none => none) }

/-- `VoiceHandler::is_voice_active`. -/
def VoiceHandler.is_voice_active (vh : VoiceHandler) : Bool :=
  vh.voices.any (fun v => v.isSome)

/-- `note_to_freq` from `src/util.rs`, modelled over the reals:
`((note_value - 69.0) / 12.0).exp2() * 440.0`. -/
noncomputable def note_to_freq (note_value : ℝ) : ℝ :=
  (2 : ℝ) ^ ((note_value - 69) / 12) * 440

/-- `freq_to_note` from `src/util.rs`, modelled over the reals:
`12.0f32.mul_add((freq / 440.0).log2(), 69.0)`. -/
noncomputable def freq_to_note (freq : ℝ) : ℝ :=
  12 * Real.logb 2 (freq / 440) + 69

/-! ### Basic lemmas about the panicking primitives -/

lemma exbind_ok {α β : Type} (a : α) (f : α → Except RtPanic β) :
    (Except.ok a >>= f) = f a := rfl

lemma exbind_error {α β : Type} (e : RtPanic) (f : α → Except RtPanic β) :
    ((Except.error e : Except RtPanic α) >>= f) = Except.error e := rfl

lemma checkedSub_ok {a b c : Nat} : checkedSub a b = Except.ok c ↔ b ≤ a ∧ c = a - b := by
  unfold checkedSub
  split
  · simp_all [eq_comm]
  · simp_all

lemma listSetE_ok {l l2 : List ℚ} {i : Nat} {x : ℚ} :
    listSetE l i x = Except.ok l2 ↔ i < l.length ∧ l2 = l.set i x := by
  unfold listSetE
  split
  · simp_all [eq_comm]
  · simp_all

lemma listGetE_ok {l : List ℚ} {i : Nat} {x : ℚ} :
    listGetE l i = Except.ok x ↔ l[i]? = some x := by
  unfold listGetE
  split
  · rename_i y heq
    rw [heq]
    simp
  · rename_i heq
    rw [heq]
    simp

/-! ### `position?` and `argminIdx` characterizations -/

lemma position?_none_iff {p : α → Bool} {l : List α} :
    position? p l = none ↔ ∀ x ∈ l, p x = false := by
  induction l with
  | nil => simp [position?]
  | cons x xs ih =>
    by_cases hx : p x <;> simp [position?, hx, ih]

lemma position?_some {p : α → Bool} {l : List α} {j : Nat}
    (h : position? p l = some j) :
    j < l.length ∧ (∃ x, l[j]? = some x ∧ p x = true) ∧
      (∀ k < j, ∀ x, l[k]? = some x → p x = false) := by
  induction l generalizing j with
  | nil => simp [position?] at h
  | cons x xs ih =>
    by_cases hx : p x
    · simp [position?, hx] at h
      subst h
      simp [hx]
    · simp [position?, hx] at h
      obtain ⟨j', hj', rfl⟩ := h
      obtain ⟨h1, ⟨y, hy, hpy⟩, h3⟩ := ih hj'
      refine ⟨by simpa using h1, ⟨y, by simpa using hy, hpy⟩, ?_⟩
      intro k hk z hz
      match k with
      | 0 =>
        simp at hz
        subst hz
        simpa using hx
      | Nat.succ k' =>
        exact h3 k' (by omega) z (by simpa using hz)

lemma argminIdx_lt_length {l : List Nat} (h : l ≠ []) : argminIdx l < l.length := by
  induction l with
  | nil => simp at h
  | cons x xs ih =>
    match xs with
    | [] => simp [argminIdx]
    | y :: ys =>
      have hlen := ih (by simp)
      simp only [List.length_cons] at hlen
      by_cases hlt : (y :: ys).getD (argminIdx (y :: ys)) 0 < x
      · simp only [argminIdx, if_pos hlt, List.length_cons]
        omega
      · simp only [argminIdx, if_neg hlt, List.length_cons]
        omega

lemma argminIdx_min {l : List Nat} : ∀ k < l.length, l.getD (argminIdx l) 0 ≤ l.getD k 0 := by
  induction l with
  | nil => simp
  | cons x xs ih =>
    match xs with
    | [] =>
      intro k hk
      match k with
      | 0 => simp [argminIdx]
      | Nat.succ k' => simp at hk
    | y :: ys =>
      intro k hk
      by_cases hlt : (y :: ys).getD (argminIdx (y :: ys)) 0 < x
      · simp only [argminIdx, if_pos hlt]
        match k with
        | 0 => simpa using hlt.le
        | Nat.succ k' => simpa using ih k' (by simpa using hk)
      · simp only [argminIdx, if_neg hlt]
        push_neg at hlt
        match k with
        | 0 => simp
        | Nat.succ k' =>
          have := ih k' (by simpa using hk)
          simpa using hlt.trans this

/-! ### Envelope cursor lemmas -/

lemma copyEnvLoop_ok_length {env : List ℚ} {pos : Nat} :
    ∀ {i k : Nat} {block b2 : List ℚ}, copyEnvLoop env pos i k block = Except.ok b2 →
      b2.length = block.length := by
  intro i k
  induction k generalizing i with
  | zero =>
    intro block b2 h
    simp [copyEnvLoop] at h
    simp [h]
  | succ k ih =>
    intro block b2 h
    unfold copyEnvLoop at h
    cases hg : listGetE env (pos + i) with
    | error e => rw [hg] at h; simp [exbind_error] at h
    | ok x =>
      rw [hg, exbind_ok] at h
      cases hs : listSetE block i x with
      | error e => rw [hs] at h; simp [exbind_error] at h
      | ok b1 =>
        rw [hs, exbind_ok] at h
        obtain ⟨h1, rfl⟩ := listSetE_ok.mp hs
        have := ih h
        simpa using this

lemma zeroLoop_ok_length :
    ∀ {i k : Nat} {block b2 : List ℚ}, zeroLoop i k block = Except.ok b2 →
      b2.length = block.length := by
  intro i k
  induction k generalizing i with
  | zero =>
    intro block b2 h
    simp [zeroLoop] at h
    simp [h]
  | succ k ih =>
    intro block b2 h
    unfold zeroLoop at h
    cases hs : listSetE block i 0 with
    | error e => rw [hs] at h; simp [exbind_error] at h
    | ok b1 =>
      rw [hs, exbind_ok] at h
      obtain ⟨h1, rfl⟩ := listSetE_ok.mp hs
      have := ih h
      simpa using this

/-- Characterization of a successful `next_envelope_block`: the call only
succeeds when the cursor is inside the table, and it advances the cursor by
`min (remaining) block_len`, preserving the envelope table and the block's
length. -/
lemma next_envelope_block_ok {v : Voice} {block block2 : List ℚ} {bl : Nat} {v2 : Voice}
    (h : v.next_envelope_block block bl = Except.ok (block2, v2)) :
    v.envelope_idx ≤ v.envelope_data.length ∧
    v2 = { v with envelope_idx :=
      v.envelope_idx + min (v.envelope_data.length - v.envelope_idx) bl } ∧
    block2.length = block.length := by
  simp only [Voice.next_envelope_block] at h
  cases hc : checkedSub v.envelope_data.length v.envelope_idx with
  | error e => rw [hc] at h; simp [exbind_error] at h
  | ok rem =>
    rw [hc, exbind_ok] at h
    obtain ⟨hle, rfl⟩ := checkedSub_ok.mp hc
    cases hcp : copyEnvLoop v.envelope_data v.envelope_idx 0
        (min (v.envelope_data.length - v.envelope_idx) bl) block with
    | error e => rw [hcp] at h; simp [exbind_error] at h
    | ok b1 =>
      rw [hcp, exbind_ok] at h
      cases hc2 : checkedSub bl (min (v.envelope_data.length - v.envelope_idx) bl) with
      | error e => rw [hc2] at h; simp [exbind_error] at h
      | ok excess =>
        rw [hc2, exbind_ok] at h
        cases hz : zeroLoop 0 excess b1 with
        | error e => rw [hz] at h; simp [exbind_error] at h
        | ok b2 =>
          rw [hz, exbind_ok] at h
          simp only [Except.ok.injEq, Prod.mk.injEq] at h
          obtain ⟨rfl, rfl⟩ := h
          refine ⟨hle, rfl, ?_⟩
          rw [zeroLoop_ok_length hz, copyEnvLoop_ok_length hcp]

/-! ### Claim C3 (the envelope-block copy/zero-fill behaviour) -/

/-- Claim C3 evaluation: `next_envelope_block` on a voice with a 2-entry
envelope table and a requested length of 3 returns `[0, 5, 9]` — the zero
fill loop `for i in 0..excess { block[i] = 0.0 }` overwrites the copied
value at index 0 and leaves the stale value `9` at index 2, instead of the
specified `[3, 5, 0]` (copied values kept, tail zero-filled).  The cursor
still advances by the number of copied entries. -/
theorem next_envelope_block_zero_fill_overwrites :
    Voice.next_envelope_block
      { id := 1, note := 0, envelope_data := [3, 5], envelope_idx := 0,
        sample_rate := 0, oscillator := { phase := 0, phase_increment := 0 } }
      [9, 9, 9] 3
      = Except.ok ([0, 5, 9],
        { id := 1, note := 0, envelope_data := [3, 5], envelope_idx := 2,
          sample_rate := 0, oscillator := { phase := 0, phase_increment := 0 } }) ∧
    ([0, 5, 9] : List ℚ) ≠ [3, 5, 0] := by
  constructor
  · rfl
  · decide

/-! ### Claim C4 (the envelope cursor never passes the table length) -/

/-- The per-slot function of `terminate_finished_voices` is the identity on
slots whose voice satisfies the cursor invariant. -/
lemma terminate_map_id {l : List (Option Voice)}
    (hv : ∀ v : Voice, some v ∈ l → v.envelope_idx ≤ v.envelope_data.length) :
    l.map (fun slot =>
      match slot with
      | some v => if v.envelope_is_finished then none else some v
      | none => none) = l := by
  induction l with
  | nil => rfl
  | cons s rest ih =>
    simp only [List.map_cons]
    rw [ih (fun v hv' => hv v (by simp [hv']))]
    congr 1
    match s with
    | none => rfl
    | some v =>
      have h1 : v.envelope_idx ≤ v.envelope_data.length := hv v (by simp)
      have h2 : v.envelope_is_finished = false := by
        simp only [Voice.envelope_is_finished, decide_eq_false_iff_not]
        omega
      simp [h2]

/-- Claim C4: the envelope cursor of every reachable voice stays at most
the table length: a freshly started voice has cursor 0, a successful
`next_envelope_block` preserves the bound (and the table), a voice
satisfying the bound is never `envelope_is_finished`, and
`terminate_finished_voices` leaves a pool of such voices untouched. -/
theorem envelope_cursor_invariant :
    (∀ (tauQ : ℚ) (n2f : ℚ → ℚ) (vh : VoiceHandler) (note : ℚ),
      (VoiceHandler.start_voice tauQ n2f vh note).2.envelope_idx = 0) ∧
    (∀ (v : Voice) (block : List ℚ) (bl : Nat) (block2 : List ℚ) (v2 : Voice),
      v.next_envelope_block block bl = Except.ok (block2, v2) →
        v2.envelope_data = v.envelope_data ∧
        v2.envelope_idx ≤ v2.envelope_data.length) ∧
    (∀ v : Voice, v.envelope_idx ≤ v.envelope_data.length →
      v.envelope_is_finished = false) ∧
    (∀ vh : VoiceHandler,
      (∀ v : Voice, some v ∈ vh.voices → v.envelope_idx ≤ v.envelope_data.length) →
      (VoiceHandler.terminate_finished_voices vh).voices = vh.voices) := by
  refine ⟨?_, ?_, ?_, ?_⟩
  · intro tauQ n2f vh note
    simp only [VoiceHandler.start_voice, VoiceHandler.next_voice_id]
    cases hp : position? (fun v => v.isNone) vh.voices <;> simp [hp]
  · intro v block bl block2 v2 h
    obtain ⟨hle, rfl, -⟩ := next_envelope_block_ok h
    refine ⟨rfl, ?_⟩
    simp only
    omega
  · intro v hv
    simp only [Voice.envelope_is_finished, decide_eq_false_iff_not]
    omega
  · intro vh hv
    simp only [VoiceHandler.terminate_finished_voices]
    exact terminate_map_id hv

/-- Witness for C4 at a concrete voice (fields: id, note, envelope table,
cursor, sample rate, oscillator). -/
theorem envelope_cursor_invariant_witness :
    (⟨0, 0, [], 0, 0, ⟨0, 0⟩⟩ : Voice).envelope_idx ≤
      (⟨0, 0, [], 0, 0, ⟨0, 0⟩⟩ : Voice).envelope_data.length ∧
    (⟨0, 0, [], 0, 0, ⟨0, 0⟩⟩ : Voice).envelope_is_finished = false :=
  ⟨by decide, envelope_cursor_invariant.2.2.1 _ (by decide)⟩

/-! ### Claim C5 (the finished test and voice termination) -/

/-- Claim C5: `envelope_is_finished` holds exactly when the cursor is
strictly past the table length, and `terminate_finished_voices` clears
exactly the occupied slots whose voice satisfies it, preserving the other
slots. -/
theorem terminate_finished_boundary :
    (∀ v : Voice, v.envelope_is_finished = true ↔
      v.envelope_data.length < v.envelope_idx) ∧
    (∀ (vh : VoiceHandler) (i : Nat),
      vh.voices[i]? = some none →
      (VoiceHandler.terminate_finished_voices vh).voices[i]? = some none) ∧
    (∀ (vh : VoiceHandler) (i : Nat) (v : Voice),
      vh.voices[i]? = some (some v) → v.envelope_is_finished = true →
      (VoiceHandler.terminate_finished_voices vh).voices[i]? = some none) ∧
    (∀ (vh : VoiceHandler) (i : Nat) (v : Voice),
      vh.voices[i]? = some (some v) → v.envelope_is_finished = false →
      (VoiceHandler.terminate_finished_voices vh).voices[i]? = some (some v)) := by
  refine ⟨?_, ?_, ?_, ?_⟩
  · intro v
    simp [Voice.envelope_is_finished]
  · intro vh i hi
    simp [VoiceHandler.terminate_finished_voices, List.getElem?_map, hi]
  · intro vh i v hi hfin
    simp [VoiceHandler.terminate_finished_voices, List.getElem?_map, hi, hfin]
  · intro vh i v hi hfin
    simp [VoiceHandler.terminate_finished_voices, List.getElem?_map, hi, hfin]

/-- Witness for C5 at a concrete pool: a finished voice (cursor 1 past an
empty table) is cleared. -/
theorem terminate_finished_boundary_witness :
    (⟨[some ⟨0, 0, [], 1, 0, ⟨0, 0⟩⟩], 0, 0, []⟩ : VoiceHandler).voices[0]?
      = some (some ⟨0, 0, [], 1, 0, ⟨0, 0⟩⟩) ∧
    (VoiceHandler.terminate_finished_voices
      (⟨[some ⟨0, 0, [], 1, 0, ⟨0, 0⟩⟩], 0, 0, []⟩ : VoiceHandler)).voices[0]? = some none :=
  ⟨by decide, terminate_finished_boundary.2.2.1 ⟨[some ⟨0, 0, [], 1, 0, ⟨0, 0⟩⟩], 0, 0, []⟩ 0
    ⟨0, 0, [], 1, 0, ⟨0, 0⟩⟩ (by decide) (by decide)⟩

/-! ### Claim C6 (shape of the envelope table) -/

/-- Claim C6 counterexample: at `sample_rate = 1`, `duration = 7/10` the
table length is `(7/10 : f32) as usize = 0`, not `round(7/10) = 1`: the
code truncates the product instead of rounding it. -/
theorem build_envelope_length_ne_round :
    (build_envelope 1 (7/10)).length ≠ (round ((1:ℚ) * (7/10))).toNat := by
  have h1 : f32ToUsize ((1:ℚ) * (7/10)) = 0 := by
    unfold f32ToUsize
    norm_num
  have h2 : round ((1:ℚ) * (7/10)) = 1 := by norm_num [round_eq]
  rw [h2]
  have hlen : (build_envelope 1 (7/10)).length = 0 := by
    simp only [build_envelope, h1, List.length_map, List.length_reverse,
      List.length_range]
  rw [hlen]
  decide

/-- Claim C6 (amended): the envelope table's length is the *truncation*
`⌊sample_rate × duration⌋` (saturating at 0), its values are monotonically
non-increasing, and when nonempty its last value is exactly 0. -/
theorem build_envelope_props (sr t : ℚ) :
    (build_envelope sr t).length = (⌊sr * t⌋).toNat ∧
    (build_envelope sr t).Pairwise (fun a b => b ≤ a) ∧
    (build_envelope sr t ≠ [] → (build_envelope sr t).getLast? = some 0) := by
  have hbe : build_envelope sr t =
      (List.range (f32ToUsize (sr * t))).reverse.map
        (fun i : Nat => ((i : ℚ) / (sr * t)) * 0.125) := by
    simp only [build_envelope]
  refine ⟨?_, ?_, ?_⟩
  · rw [hbe]
    simp [f32ToUsize]
  · rw [hbe, List.pairwise_map, List.pairwise_reverse]
    by_cases hN : 0 < sr * t
    · refine (List.pairwise_lt_range _).imp ?_
      intro a b hab
      have hq : (a : ℚ) ≤ (b : ℚ) := by exact_mod_cast hab.le
      have hdiv : (a : ℚ) / (sr * t) ≤ (b : ℚ) / (sr * t) := by gcongr
      exact mul_le_mul_of_nonneg_right hdiv (by norm_num)
    · have hn : f32ToUsize (sr * t) = 0 := by
        unfold f32ToUsize
        have hfl : ⌊sr * t⌋ ≤ 0 := by
          calc ⌊sr * t⌋ ≤ ⌊(0:ℚ)⌋ := Int.floor_le_floor (le_of_not_lt hN)
          _ = 0 := Int.floor_zero
        omega
      simp [hn]
  · intro hne
    rcases hn : f32ToUsize (sr * t) with _ | m
    · rw [hbe, hn] at hne
      simp at hne
    · rw [hbe, hn, List.map_reverse, List.getLast?_reverse, List.head?_map,
        List.range_succ_eq_map]
      simp

/-- Witness for C6 (amended) at `sample_rate = 1`, `duration = 1`:
the one-entry table ends in 0. -/
theorem build_envelope_props_witness :
    build_envelope 1 1 ≠ [] ∧ (build_envelope 1 1).getLast? = some 0 :=
  ⟨by simp [build_envelope, f32ToUsize], (build_envelope_props 1 1).2.2
    (by simp [build_envelope, f32ToUsize])⟩

/-! ### Claim C8 (note/frequency conversions) -/

/-- Claim C8: `note_to_freq(69) = 440`, `freq_to_note(440) = 69`, and the
round trip `freq_to_note (note_to_freq n) = n` holds exactly for every MIDI
note value `n` (in the ideal-real model of the `f32` formulas). -/
theorem note_freq_conversion_spec :
    note_to_freq 69 = 440 ∧ freq_to_note 440 = 69 ∧
    ∀ n : ℝ, freq_to_note (note_to_freq n) = n := by
  refine ⟨?_, ?_, ?_⟩
  · simp [note_to_freq]
  · simp [freq_to_note, Real.logb_one]
  · intro n
    unfold freq_to_note note_to_freq
    rw [mul_div_assoc]
    norm_num
    ring

/-! ### Claim C2 (voice allocation and stealing) -/

/-- The voice value constructed by `start_voice` (named here so the
allocation equations below stay readable). -/
def startVoiceNew (tauQ : ℚ) (n2f : ℚ → ℚ) (vh : VoiceHandler) (note : ℚ) : Voice :=
  { id := (vh.id_counter + 1) % U64_MOD
    note := note
    envelope_data := vh.envelope_data
    envelope_idx := 0
    sample_rate := vh.sample_rate
    oscillator := SineOsc.new tauQ (n2f note) vh.sample_rate }

/-- `start_voice` when a free slot exists: fill the found slot. -/
lemma start_voice_free {tauQ : ℚ} {n2f : ℚ → ℚ} {vh : VoiceHandler} {note : ℚ} {j : Nat}
    (hp : position? (fun v => v.isNone) vh.voices = some j) :
    (VoiceHandler.start_voice tauQ n2f vh note).1.voices
        = vh.voices.set j (some (startVoiceNew tauQ n2f vh note)) ∧
    (VoiceHandler.start_voice tauQ n2f vh note).2 = startVoiceNew tauQ n2f vh note ∧
    (VoiceHandler.start_voice tauQ n2f vh note).1.id_counter
        = (vh.id_counter + 1) % U64_MOD ∧
    (VoiceHandler.start_voice tauQ n2f vh note).1.sample_rate = vh.sample_rate ∧
    (VoiceHandler.start_voice tauQ n2f vh note).1.envelope_data = vh.envelope_data := by
  refine ⟨?_, ?_, ?_, ?_, ?_⟩ <;>
    simp only [VoiceHandler.start_voice, VoiceHandler.next_voice_id, startVoiceNew, hp]

/-- `start_voice` when every slot is occupied: steal the slot whose voice
has the first-minimal id. -/
lemma start_voice_steal {tauQ : ℚ} {n2f : ℚ → ℚ} {vh : VoiceHandler} {note : ℚ}
    (hp : position? (fun v => v.isNone) vh.voices = none) :
    (VoiceHandler.start_voice tauQ n2f vh note).1.voices
        = vh.voices.set (argminIdx (vh.voices.map slotId))
            (some (startVoiceNew tauQ n2f vh note)) ∧
    (VoiceHandler.start_voice tauQ n2f vh note).2 = startVoiceNew tauQ n2f vh note ∧
    (VoiceHandler.start_voice tauQ n2f vh note).1.id_counter
        = (vh.id_counter + 1) % U64_MOD ∧
    (VoiceHandler.start_voice tauQ n2f vh note).1.sample_rate = vh.sample_rate ∧
    (VoiceHandler.start_voice tauQ n2f vh note).1.envelope_data = vh.envelope_data := by
  refine ⟨?_, ?_, ?_, ?_, ?_⟩ <;>
    simp only [VoiceHandler.start_voice, VoiceHandler.next_voice_id, startVoiceNew, hp]

/-- `getD` of the id projection of a pool, at an occupied index. -/
lemma mapSlotId_getD {l : List (Option Voice)} {m : Nat} {s : Option Voice}
    (h : l[m]? = some s) : (l.map slotId).getD m 0 = slotId s := by
  obtain ⟨hm, heq⟩ := List.getElem?_eq_some_iff.mp h
  rw [List.getD_eq_getElem _ _ (by simpa using hm), List.getElem_map, heq]

/-- Claim C2: `start_voice` always installs its new voice in some slot; if
an empty slot exists it uses the lowest-indexed empty slot; if all 16 slots
are occupied it replaces a slot whose voice has the minimal id, leaving all
other slots unchanged. -/
theorem start_voice_spec (tauQ : ℚ) (n2f : ℚ → ℚ) (vh : VoiceHandler) (note : ℚ)
    (hlen : vh.voices.length = NUM_VOICES) :
    (∃ j, j < NUM_VOICES ∧
      (VoiceHandler.start_voice tauQ n2f vh note).1.voices[j]? =
        some (some (VoiceHandler.start_voice tauQ n2f vh note).2)) ∧
    ((∃ k : Nat, vh.voices[k]? = some none) →
      ∃ j, vh.voices[j]? = some none ∧ (∀ k, k < j → vh.voices[k]? ≠ some none) ∧
        (VoiceHandler.start_voice tauQ n2f vh note).1.voices =
          vh.voices.set j (some (VoiceHandler.start_voice tauQ n2f vh note).2)) ∧
    ((∀ k, k < NUM_VOICES → vh.voices[k]? ≠ some none) →
      ∃ j, j < NUM_VOICES ∧ ∃ w, vh.voices[j]? = some (some w) ∧
        (∀ k, k < NUM_VOICES → ∀ u, vh.voices[k]? = some (some u) → w.id ≤ u.id) ∧
        (VoiceHandler.start_voice tauQ n2f vh note).1.voices =
          vh.voices.set j (some (VoiceHandler.start_voice tauQ n2f vh note).2)) := by
  cases hp : position? (fun v => v.isNone) vh.voices with
  | some j =>
    obtain ⟨hj, ⟨x, hx, hxn⟩, hfirst⟩ := position?_some hp
    have hxnone : x = none := Option.isNone_iff_eq_none.mp hxn
    subst hxnone
    obtain ⟨hv, hnv, -, -, -⟩ := @start_voice_free tauQ n2f _ note _ hp
    rw [hv, hnv]
    refine ⟨⟨j, by omega, ?_⟩, ?_, ?_⟩
    · rw [List.getElem?_set_self]
      have hjl : j < vh.voices.length := by omega
      simp [hjl]
    · intro _
      refine ⟨j, hx, ?_, rfl⟩
      intro k hk hknone
      cases hkc : vh.voices[k]? with
      | none => rw [hkc] at hknone; simp at hknone
      | some y =>
        rw [hkc] at hknone
        have hyn : y = none := by simpa using hknone
        have := hfirst k hk y hkc
        rw [hyn] at this
        simp at this
    · intro hall
      exfalso
      exact hall j (by omega) hx
  | none =>
    have hnone := position?_none_iff.mp hp
    obtain ⟨hv, hnv, -, -, -⟩ := @start_voice_steal tauQ n2f _ note hp
    rw [hv, hnv]
    have hne : vh.voices ≠ [] := by
      intro hnil
      rw [hnil] at hlen
      simp [NUM_VOICES] at hlen
    have hjlt : argminIdx (vh.voices.map slotId) < vh.voices.length := by
      have := argminIdx_lt_length (l := vh.voices.map slotId) (by simpa using hne)
      simpa using this
    have hjget : vh.voices[argminIdx (vh.voices.map slotId)]? =
        some vh.voices[argminIdx (vh.voices.map slotId)] :=
      List.getElem?_eq_getElem hjlt
    obtain ⟨w, hw⟩ : ∃ w, vh.voices[argminIdx (vh.voices.map slotId)] = some w := by
      cases hc : vh.voices[argminIdx (vh.voices.map slotId)] with
      | none =>
        exfalso
        have hmem : (none : Option Voice) ∈ vh.voices := by
          rw [← hc]
          exact vh.voices.getElem_mem hjlt
        have := hnone none hmem
        simp at this
      | some w => exact ⟨w, rfl⟩
    refine ⟨⟨argminIdx (vh.voices.map slotId), by omega, ?_⟩, ?_, ?_⟩
    · rw [List.getElem?_set_self]
      simp [hjlt]
    · rintro ⟨k, hk⟩
      exfalso
      have hmem := List.getElem?_mem hk
      have := hnone none hmem
      simp at this
    · intro _
      refine ⟨argminIdx (vh.voices.map slotId), by omega, w, by rw [hjget, hw], ?_, rfl⟩
      intro k hk u hu
      have hmin := argminIdx_min (l := vh.voices.map slotId) k
        (by simpa using (by omega : k < vh.voices.length))
      rw [mapSlotId_getD hu] at hmin
      rw [mapSlotId_getD (by rw [hjget, hw])] at hmin
      simpa [slotId] using hmin

/-- Witness for C2 at a pool of 16 empty slots. -/
theorem start_voice_spec_witness :
    ((⟨List.replicate 16 none, 0, 0, []⟩ : VoiceHandler).voices.length = NUM_VOICES) ∧
    (∃ j, j < NUM_VOICES ∧
      (VoiceHandler.start_voice 0 (fun _ => 0)
          ⟨List.replicate 16 none, 0, 0, []⟩ 0).1.voices[j]? =
        some (some (VoiceHandler.start_voice 0 (fun _ => 0)
          ⟨List.replicate 16 none, 0, 0, []⟩ 0).2)) :=
  ⟨by decide, (start_voice_spec 0 (fun _ => 0) ⟨List.replicate 16 none, 0, 0, []⟩ 0
    (by decide)).1⟩

/-! ### The render callback (`src/audio/process.rs` and
`VoiceHandler::process_block`) -/

/-- The per-voice render loop inside `process_block`:
`for (value_idx, sample_idx) in (block_start..block_end).enumerate()`,
accumulating `out * amp` into both interleaved channels.  Arguments after
`env`: current `value_idx`, current `sample_idx`, remaining iteration
count, output buffer, the voice's oscillator. -/
def renderLoop (sinf : ℚ → ℚ) (tauQ : ℚ) (env : List ℚ) :
    Nat → Nat → Nat → List ℚ → SineOsc → Except RtPanic (List ℚ × SineOsc)
  | _, _, 0, buffer, osc => Except.ok (buffer, osc)
  | vi, si, k + 1, buffer, osc => do
    let amp ← listGetE env vi
    let p := SineOsc.process sinf tauQ osc
    let cur ← listGetE buffer (si * 2)
    let b1 ← listSetE buffer (si * 2) (cur + p.1 * amp)
    let cur2 ← listGetE b1 (si * 2 + 1)
    let b2 ← listSetE b1 (si * 2 + 1) (cur2 + p.1 * amp)
    renderLoop sinf tauQ env (vi + 1) (si + 1) k b2 p.2

/-- The per-slot loop of `process_block`, visiting the occupied slots in
order and threading the output buffer and the shared scratch envelope
block (`voice_amp_envelope`). -/
def processSlots (sinf : ℚ → ℚ) (tauQ : ℚ) (block_start block_len : Nat) :
    List (Option Voice) → List ℚ → List ℚ →
    Except RtPanic (List (Option Voice) × List ℚ × List ℚ)
  | [], buffer, scratch => Except.ok ([], buffer, scratch)
  | none :: rest, buffer, scratch => do
    let r ← processSlots sinf tauQ block_start block_len rest buffer scratch
    Except.ok (none :: r.1, r.2)
  | some v :: rest, buffer, scratch => do
    let eb ← v.next_envelope_block scratch block_len
    let rl ← renderLoop sinf tauQ eb.1 0 block_start block_len buffer eb.2.oscillator
    let r ← processSlots sinf tauQ block_start block_len rest rl.1 eb.1
    Except.ok (some { eb.2 with oscillator := rl.2 } :: r.1, r.2)

/-- `VoiceHandler::process_block` from `src/audio/voice/handler.rs`. -/
def VoiceHandler.process_block (sinf : ℚ → ℚ) (tauQ : ℚ) (vh : VoiceHandler)
    (buffer : List ℚ) (block_start block_end : Nat) :
    Except RtPanic (VoiceHandler × List ℚ) := do
  let block_len ← checkedSub block_end block_start
  let r ← processSlots sinf tauQ block_start block_len vh.voices buffer
    (List.replicate MAX_BLOCK_SIZE 0)
  Except.ok ({ vh with voices := r.1 }, r.2.1)

/-- Result of the event-dispatch loop (`'events: loop`) of the callback. -/
structure EventsResult where
  vh : VoiceHandler
  next_event : Option NoteEvent
  queue : List NoteEvent
  block_end : Nat
  dispatched : List NoteEvent
deriving Repr, DecidableEq

/-- The `'events: loop` of the render callback: dispatch every pending
event due at or before `block_start` (NoteOn starts a voice, NoteOff is
`unimplemented!`), shrink `block_end` to an event lying strictly inside
the sub-block, otherwise leave the pending event for a later sub-block.
The channel is modelled by `next_event` (the event already received) plus
`queue` (the remaining channel contents); `try_recv` pops the queue head.
The first argument is fuel for the encoding; the loop dispatches at most
one event per queue element. -/
def events_loop (tauQ : ℚ) (n2f : ℚ → ℚ) :
    Nat → VoiceHandler → Option NoteEvent → List NoteEvent → Nat → Nat →
    Except RtPanic EventsResult
  | 0, _, _, _, _, _ => Except.error RtPanic.fuelOut
  | fuel + 1, vh, next_event, queue, block_start, block_end =>
    match next_event with
    | some event =>
      if event.timing ≤ block_start then
        match event with
        | NoteEvent.NoteOn _ _ => do
          let r ← events_loop tauQ n2f fuel
            (VoiceHandler.start_voice tauQ n2f vh event.note).1
            queue.head? queue.tail block_start block_end
          Except.ok { r with dispatched := event :: r.dispatched }
        | NoteEvent.NoteOff _ _ => Except.error RtPanic.unimplemented
      else if event.timing < block_end then
        Except.ok ⟨vh, some event, queue, event.timing, []⟩
      else
        Except.ok ⟨vh, next_event, queue, block_end, []⟩
    | none => Except.ok ⟨vh, none, queue, block_end, []⟩

/-- Result of a full render callback: the buffer, the final handler, the
event still held in `next_event` when the callback returns (it is dropped),
the channel remainder, the sub-blocks rendered, and the dispatched
events. -/
structure ProcResult where
  buffer : List ℚ
  vh : VoiceHandler
  next_event : Option NoteEvent
  queue : List NoteEvent
  blocks : List (Nat × Nat)
  dispatched : List NoteEvent
deriving Repr, DecidableEq

/-- The `while block_start < buffer_len` loop of `process`.  The unused
source binding `let block_len = block_end - block_start;` (line 49) is kept
as a checked subtraction.  Fuel-encoded; each iteration strictly advances
`block_start`. -/
def process_loop (sinf : ℚ → ℚ) (tauQ : ℚ) (n2f : ℚ → ℚ) (buffer_len : Nat) :
    Nat → VoiceHandler → Option NoteEvent → List NoteEvent → List ℚ → Nat → Nat →
    Except RtPanic ProcResult
  | 0, _, _, _, _, _, _ => Except.error RtPanic.fuelOut
  | fuel + 1, vh, next_event, queue, buffer, block_start, block_end =>
    if block_start < buffer_len then do
      let er ← events_loop tauQ n2f (queue.length + 2) vh next_event queue
        block_start block_end
      let _ ← checkedSub er.block_end block_start
      let pb ← VoiceHandler.process_block sinf tauQ er.vh buffer block_start
        er.block_end
      let r ← process_loop sinf tauQ n2f buffer_len fuel
        pb.1.terminate_finished_voices er.next_event er.queue pb.2 er.block_end
        (min (er.block_end + MAX_BLOCK_SIZE) buffer_len)
      Except.ok { r with
        blocks := (block_start, er.block_end) :: r.blocks
        dispatched := er.dispatched ++ r.dispatched }
    else
      Except.ok ⟨buffer, vh, next_event, queue, [], []⟩

/-- The render callback `process` from `src/audio/process.rs`, on an
interleaved stereo buffer (`buffer_len = buffer.len() / 2` frames) and the
channel contents `queue`.  The trailing `set_callback_timer` call touches
only wall-clock telemetry and is not modelled. -/
def process (sinf : ℚ → ℚ) (tauQ : ℚ) (n2f : ℚ → ℚ) (vh : VoiceHandler)
    (queue : List NoteEvent) (buffer : List ℚ) : Except RtPanic ProcResult :=
  let buffer_len := buffer.length / 2
  process_loop sinf tauQ n2f buffer_len (buffer_len + 1) vh queue.head? queue.tail
    buffer 0 (min MAX_BLOCK_SIZE buffer_len)

/-! ### Unfolding equations for the fuel-encoded loops -/

lemma events_loop_zero {tauQ : ℚ} {n2f : ℚ → ℚ} {vh : VoiceHandler}
    {ne : Option NoteEvent} {q : List NoteEvent} {s e : Nat} :
    events_loop tauQ n2f 0 vh ne q s e = Except.error RtPanic.fuelOut := rfl

lemma events_loop_none {tauQ : ℚ} {n2f : ℚ → ℚ} {fuel : Nat} {vh : VoiceHandler}
    {q : List NoteEvent} {s e : Nat} :
    events_loop tauQ n2f (fuel + 1) vh none q s e = Except.ok ⟨vh, none, q, e, []⟩ := rfl

lemma events_loop_on {tauQ : ℚ} {n2f : ℚ → ℚ} {fuel : Nat} {vh : VoiceHandler}
    {q : List NoteEvent} {s e t : Nat} {d : NoteEventData} :
    events_loop tauQ n2f (fuel + 1) vh (some (NoteEvent.NoteOn t d)) q s e =
      if t ≤ s then
        (do
          let r ← events_loop tauQ n2f fuel
            (VoiceHandler.start_voice tauQ n2f vh d.note).1 q.head? q.tail s e
          Except.ok { r with dispatched := NoteEvent.NoteOn t d :: r.dispatched })
      else if t < e then Except.ok ⟨vh, some (NoteEvent.NoteOn t d), q, t, []⟩
      else Except.ok ⟨vh, some (NoteEvent.NoteOn t d), q, e, []⟩ := rfl

lemma events_loop_off {tauQ : ℚ} {n2f : ℚ → ℚ} {fuel : Nat} {vh : VoiceHandler}
    {q : List NoteEvent} {s e t : Nat} {d : NoteEventData} :
    events_loop tauQ n2f (fuel + 1) vh (some (NoteEvent.NoteOff t d)) q s e =
      if t ≤ s then Except.error RtPanic.unimplemented
      else if t < e then Except.ok ⟨vh, some (NoteEvent.NoteOff t d), q, t, []⟩
      else Except.ok ⟨vh, some (NoteEvent.NoteOff t d), q, e, []⟩ := rfl

lemma process_loop_zero {sinf : ℚ → ℚ} {tauQ : ℚ} {n2f : ℚ → ℚ}
    {len : Nat} {vh : VoiceHandler} {ne : Option NoteEvent} {q : List NoteEvent}
    {buffer : List ℚ} {s e : Nat} :
    process_loop sinf tauQ n2f len 0 vh ne q buffer s e =
      Except.error RtPanic.fuelOut := rfl

lemma process_loop_succ {sinf : ℚ → ℚ} {tauQ : ℚ} {n2f : ℚ → ℚ}
    {len fuel : Nat} {vh : VoiceHandler} {ne : Option NoteEvent} {q : List NoteEvent}
    {buffer : List ℚ} {s e : Nat} :
    process_loop sinf tauQ n2f len (fuel + 1) vh ne q buffer s e =
      if s < len then
        (do
          let er ← events_loop tauQ n2f (q.length + 2) vh ne q s e
          let _ ← checkedSub er.block_end s
          let pb ← VoiceHandler.process_block sinf tauQ er.vh buffer s er.block_end
          let r ← process_loop sinf tauQ n2f len fuel pb.1.terminate_finished_voices
            er.next_event er.queue pb.2 er.block_end
            (min (er.block_end + MAX_BLOCK_SIZE) len)
          Except.ok { r with
            blocks := (s, er.block_end) :: r.blocks
            dispatched := er.dispatched ++ r.dispatched })
      else Except.ok ⟨buffer, vh, ne, q, [], []⟩ := rfl

/-! ### Post-hoc characterizations of the callback loops -/

lemma head?_toList_append_tail (q : List NoteEvent) : q.head?.toList ++ q.tail = q := by
  cases q <;> simp

/-- What a successful run of the event loop guarantees: the pending events
decompose into the dispatched prefix, the still-held event and the channel
remainder; dispatched events were due (`timing ≤ block_start`); the held
event is not due before the returned block end; the block end is unchanged
or shrunk exactly to a pending event strictly inside the sub-block; and if
nothing was dispatched the handler is untouched. -/
lemma events_loop_ok {tauQ : ℚ} {n2f : ℚ → ℚ} :
    ∀ {fuel : Nat} {vh : VoiceHandler} {ne : Option NoteEvent} {q : List NoteEvent}
      {s e : Nat} {r : EventsResult},
      events_loop tauQ n2f fuel vh ne q s e = Except.ok r →
      (ne.toList ++ q = r.dispatched ++ r.next_event.toList ++ r.queue) ∧
      (∀ ev ∈ r.dispatched, ev.timing ≤ s) ∧
      (∀ ev, r.next_event = some ev → r.block_end ≤ ev.timing) ∧
      (s < e → s < r.block_end) ∧
      (r.block_end = e ∨ ∃ ev, r.next_event = some ev ∧ s < ev.timing ∧
        ev.timing < e ∧ r.block_end = ev.timing) ∧
      (r.dispatched = [] → r.vh = vh) := by
  intro fuel
  induction fuel with
  | zero =>
    intro vh ne q s e r h
    rw [events_loop_zero] at h
    exact absurd h (by simp)
  | succ fuel ih =>
    intro vh ne q s e r h
    match ne with
    | none =>
      rw [events_loop_none] at h
      simp only [Except.ok.injEq] at h
      subst h
      simp
    | some (NoteEvent.NoteOn t d) =>
      rw [events_loop_on] at h
      by_cases ht : t ≤ s
      · rw [if_pos ht] at h
        cases hrec : events_loop tauQ n2f fuel
            (VoiceHandler.start_voice tauQ n2f vh d.note).1 q.head? q.tail s e with
        | error er =>
          rw [hrec] at h
          simp [exbind_error] at h
        | ok r' =>
          rw [hrec, exbind_ok] at h
          simp only [Except.ok.injEq] at h
          subst h
          obtain ⟨ha, hb, hc, hd, hsh, -⟩ := ih hrec
          refine ⟨?_, ?_, hc, hd, hsh, ?_⟩
          · simp only [Option.toList_some, List.cons_append, List.nil_append]
            rw [← head?_toList_append_tail q]
            rw [ha]
          · intro ev hev
            simp only [List.mem_cons] at hev
            rcases hev with rfl | hev
            · simpa [NoteEvent.timing] using ht
            · exact hb ev hev
          · intro hcon
            simp at hcon
      · rw [if_neg ht] at h
        by_cases ht2 : t < e
        · rw [if_pos ht2] at h
          simp only [Except.ok.injEq] at h
          subst h
          refine ⟨by simp, by simp, ?_, ?_, ?_, by simp⟩
          · intro ev hev
            simp only [Option.some.injEq] at hev
            subst hev
            show t ≤ (NoteEvent.NoteOn t d).timing
            simp [NoteEvent.timing]
          · intro _
            show s < t
            omega
          · refine Or.inr ⟨NoteEvent.NoteOn t d, rfl, ?_, ?_, rfl⟩
            · show s < (NoteEvent.NoteOn t d).timing
              simp [NoteEvent.timing]
              omega
            · show (NoteEvent.NoteOn t d).timing < e
              simpa [NoteEvent.timing] using ht2
        · rw [if_neg ht2] at h
          simp only [Except.ok.injEq] at h
          subst h
          refine ⟨by simp, by simp, ?_, ?_, Or.inl rfl, by simp⟩
          · intro ev hev
            simp only [Option.some.injEq] at hev
            subst hev
            show e ≤ (NoteEvent.NoteOn t d).timing
            simp [NoteEvent.timing]
            omega
          · intro hse
            exact hse
    | some (NoteEvent.NoteOff t d) =>
      rw [events_loop_off] at h
      by_cases ht : t ≤ s
      · rw [if_pos ht] at h
        exact absurd h (by simp)
      · rw [if_neg ht] at h
        by_cases ht2 : t < e
        · rw [if_pos ht2] at h
          simp only [Except.ok.injEq] at h
          subst h
          refine ⟨by simp, by simp, ?_, ?_, ?_, by simp⟩
          · intro ev hev
            simp only [Option.some.injEq] at hev
            subst hev
            show t ≤ (NoteEvent.NoteOff t d).timing
            simp [NoteEvent.timing]
          · intro _
            show s < t
            omega
          · refine Or.inr ⟨NoteEvent.NoteOff t d, rfl, ?_, ?_, rfl⟩
            · show s < (NoteEvent.NoteOff t d).timing
              simp [NoteEvent.timing]
              omega
            · show (NoteEvent.NoteOff t d).timing < e
              simpa [NoteEvent.timing] using ht2
        · rw [if_neg ht2] at h
          simp only [Except.ok.injEq] at h
          subst h
          refine ⟨by simp, by simp, ?_, ?_, Or.inl rfl, by simp⟩
          · intro ev hev
            simp only [Option.some.injEq] at hev
            subst hev
            show e ≤ (NoteEvent.NoteOff t d).timing
            simp [NoteEvent.timing]
            omega
          · intro hse
            exact hse

/-- With enough fuel, the event loop either succeeds or hits the
`unimplemented!` NoteOff path, in which case a due NoteOff was pending. -/
lemma events_loop_cases {tauQ : ℚ} {n2f : ℚ → ℚ} :
    ∀ {fuel : Nat} {vh : VoiceHandler} {ne : Option NoteEvent} {q : List NoteEvent}
      {s e : Nat}, q.length + 2 ≤ fuel →
      (∃ r, events_loop tauQ n2f fuel vh ne q s e = Except.ok r) ∨
      (events_loop tauQ n2f fuel vh ne q s e = Except.error RtPanic.unimplemented ∧
        ∃ ev ∈ ne.toList ++ q, ev.timing ≤ s ∧ ev.isNoteOn = false) := by
  intro fuel
  induction fuel with
  | zero =>
    intro vh ne q s e hfuel
    omega
  | succ fuel ih =>
    intro vh ne q s e hfuel
    match ne with
    | none => exact Or.inl ⟨_, events_loop_none⟩
    | some (NoteEvent.NoteOn t d) =>
      by_cases ht : t ≤ s
      · rw [events_loop_on, if_pos ht]
        match q with
        | [] =>
          match fuel, hfuel with
          | fuel + 1, _ =>
            refine Or.inl ⟨⟨(VoiceHandler.start_voice tauQ n2f vh d.note).1, none, [], e,
              [NoteEvent.NoteOn t d]⟩, ?_⟩
            rw [show ([] : List NoteEvent).head? = none from rfl,
              show ([] : List NoteEvent).tail = [] from rfl, events_loop_none, exbind_ok]
        | ev0 :: q' =>
          have hfuel' : (ev0 :: q').tail.length + 2 ≤ fuel := by
            simp only [List.tail_cons]
            simp only [List.length_cons] at hfuel
            omega
          rcases @ih (VoiceHandler.start_voice tauQ n2f vh d.note).1
              ((ev0 :: q').head?) ((ev0 :: q').tail) s e
              hfuel' with ⟨r, hr⟩ | ⟨herr, ev, hmem, hts, hoff⟩
          · exact Or.inl ⟨_, by rw [hr, exbind_ok]⟩
          · refine Or.inr ⟨by rw [herr, exbind_error], ev, ?_, hts, hoff⟩
            rw [head?_toList_append_tail] at hmem
            simp [hmem]
      · rw [events_loop_on, if_neg ht]
        by_cases ht2 : t < e
        · rw [if_pos ht2]
          exact Or.inl ⟨_, rfl⟩
        · rw [if_neg ht2]
          exact Or.inl ⟨_, rfl⟩
    | some (NoteEvent.NoteOff t d) =>
      by_cases ht : t ≤ s
      · refine Or.inr ⟨by rw [events_loop_off, if_pos ht], NoteEvent.NoteOff t d, by simp,
          by simpa [NoteEvent.timing], by simp [NoteEvent.isNoteOn]⟩
      · rw [events_loop_off, if_neg ht]
        by_cases ht2 : t < e
        · rw [if_pos ht2]
          exact Or.inl ⟨_, rfl⟩
        · rw [if_neg ht2]
          exact Or.inl ⟨_, rfl⟩

/-! ### Characterizations of `process_block` -/

/-- A successful render loop preserves the buffer length and touches only
the interleaved positions of frames `[si, si + k)`. -/
lemma renderLoop_ok {sinf : ℚ → ℚ} {tauQ : ℚ} {env : List ℚ} :
    ∀ {k vi si : Nat} {buffer : List ℚ} {osc : SineOsc} {b2 : List ℚ} {o2 : SineOsc},
      renderLoop sinf tauQ env vi si k buffer osc = Except.ok (b2, o2) →
      b2.length = buffer.length ∧
      ∀ j, (j < 2 * si ∨ 2 * (si + k) ≤ j) → b2[j]? = buffer[j]? := by
  intro k
  induction k with
  | zero =>
    intro vi si buffer osc b2 o2 h
    rw [renderLoop] at h
    simp only [Except.ok.injEq, Prod.mk.injEq] at h
    obtain ⟨rfl, rfl⟩ := h
    exact ⟨rfl, fun j _ => rfl⟩
  | succ k ih =>
    intro vi si buffer osc b2 o2 h
    rw [renderLoop] at h
    cases hg : listGetE env vi with
    | error er => rw [hg] at h; simp [exbind_error] at h
    | ok amp =>
      rw [hg, exbind_ok] at h
      cases hc1 : listGetE buffer (si * 2) with
      | error er => rw [hc1] at h; simp [exbind_error] at h
      | ok cur =>
        rw [hc1, exbind_ok] at h
        cases hs1 : listSetE buffer (si * 2)
            (cur + (SineOsc.process sinf tauQ osc).1 * amp) with
        | error er => rw [hs1] at h; simp [exbind_error] at h
        | ok b1 =>
          rw [hs1, exbind_ok] at h
          cases hc2 : listGetE b1 (si * 2 + 1) with
          | error er => rw [hc2] at h; simp [exbind_error] at h
          | ok cur2 =>
            rw [hc2, exbind_ok] at h
            cases hs2 : listSetE b1 (si * 2 + 1)
                (cur2 + (SineOsc.process sinf tauQ osc).1 * amp) with
            | error er => rw [hs2] at h; simp [exbind_error] at h
            | ok bset =>
              rw [hs2, exbind_ok] at h
              obtain ⟨hlt1, rfl⟩ := listSetE_ok.mp hs1
              obtain ⟨hlt2, rfl⟩ := listSetE_ok.mp hs2
              obtain ⟨ihlen, ihloc⟩ := ih h
              constructor
              · rw [ihlen]
                simp
              · intro j hj
                rw [ihloc j (by omega)]
                rw [List.getElem?_set_ne (by omega)]
                rw [List.getElem?_set_ne (by omega)]

/-- The render loop succeeds whenever the envelope block has `vi + k`
entries and the buffer covers the last written frame. -/
lemma renderLoop_total {sinf : ℚ → ℚ} {tauQ : ℚ} {env : List ℚ} :
    ∀ {k vi si : Nat} {buffer : List ℚ} {osc : SineOsc},
      vi + k ≤ env.length → 2 * (si + k) ≤ buffer.length →
      ∃ b2 o2, renderLoop sinf tauQ env vi si k buffer osc = Except.ok (b2, o2) := by
  intro k
  induction k with
  | zero =>
    intro vi si buffer osc _ _
    exact ⟨buffer, osc, by rw [renderLoop]⟩
  | succ k ih =>
    intro vi si buffer osc henv hbuf
    have hvi : vi < env.length := by omega
    have hg : listGetE env vi = Except.ok env[vi] :=
      listGetE_ok.mpr (List.getElem?_eq_getElem hvi)
    have hcur : si * 2 < buffer.length := by omega
    have hc1 : listGetE buffer (si * 2) = Except.ok buffer[si * 2] :=
      listGetE_ok.mpr (List.getElem?_eq_getElem hcur)
    have hs1 : listSetE buffer (si * 2)
        (buffer[si * 2] + (SineOsc.process sinf tauQ osc).1 * env[vi])
        = Except.ok (buffer.set (si * 2)
          (buffer[si * 2] + (SineOsc.process sinf tauQ osc).1 * env[vi])) :=
      listSetE_ok.mpr ⟨hcur, rfl⟩
    set b1 := buffer.set (si * 2)
      (buffer[si * 2] + (SineOsc.process sinf tauQ osc).1 * env[vi]) with hb1
    have hlen1 : b1.length = buffer.length := by rw [hb1]; simp
    have hcur2 : si * 2 + 1 < b1.length := by omega
    have hc2 : listGetE b1 (si * 2 + 1) = Except.ok b1[si * 2 + 1] :=
      listGetE_ok.mpr (List.getElem?_eq_getElem hcur2)
    have hs2 : listSetE b1 (si * 2 + 1)
        (b1[si * 2 + 1] + (SineOsc.process sinf tauQ osc).1 * env[vi])
        = Except.ok (b1.set (si * 2 + 1)
          (b1[si * 2 + 1] + (SineOsc.process sinf tauQ osc).1 * env[vi])) :=
      listSetE_ok.mpr ⟨hcur2, rfl⟩
    have hlen2 : (b1.set (si * 2 + 1)
        (b1[si * 2 + 1] + (SineOsc.process sinf tauQ osc).1 * env[vi])).length
        = buffer.length := by
      rw [List.length_set, hlen1]
    obtain ⟨b2, o2, hrec⟩ := @ih (vi + 1) (si + 1)
      (b1.set (si * 2 + 1)
        (b1[si * 2 + 1] + (SineOsc.process sinf tauQ osc).1 * env[vi]))
      ((SineOsc.process sinf tauQ osc).2)
      (by omega) (by rw [hlen2]; omega)
    refine ⟨b2, o2, ?_⟩
    rw [renderLoop, hg, exbind_ok, hc1, exbind_ok, hs1, exbind_ok, hc2, exbind_ok,
      hs2, exbind_ok, hrec]

lemma copyEnvLoop_total {env : List ℚ} {pos : Nat} :
    ∀ {k i : Nat} {block : List ℚ}, pos + i + k ≤ env.length → i + k ≤ block.length →
      ∃ b2, copyEnvLoop env pos i k block = Except.ok b2 ∧ b2.length = block.length := by
  intro k
  induction k with
  | zero =>
    intro i block _ _
    exact ⟨block, by rw [copyEnvLoop], rfl⟩
  | succ k ih =>
    intro i block henv hblock
    have hi : pos + i < env.length := by omega
    have hg : listGetE env (pos + i) = Except.ok env[pos + i] :=
      listGetE_ok.mpr (List.getElem?_eq_getElem hi)
    have hib : i < block.length := by omega
    have hs : listSetE block i env[pos + i] = Except.ok (block.set i env[pos + i]) :=
      listSetE_ok.mpr ⟨hib, rfl⟩
    obtain ⟨b2, hrec, hlen⟩ := @ih (i + 1) (block.set i env[pos + i])
      (by omega) (by simp; omega)
    refine ⟨b2, ?_, by rw [hlen]; simp⟩
    rw [copyEnvLoop, hg, exbind_ok, hs, exbind_ok, hrec]

lemma zeroLoop_total :
    ∀ {k i : Nat} {block : List ℚ}, i + k ≤ block.length →
      ∃ b2, zeroLoop i k block = Except.ok b2 ∧ b2.length = block.length := by
  intro k
  induction k with
  | zero =>
    intro i block _
    exact ⟨block, by rw [zeroLoop], rfl⟩
  | succ k ih =>
    intro i block hblock
    have hib : i < block.length := by omega
    have hs : listSetE block i 0 = Except.ok (block.set i 0) := listSetE_ok.mpr ⟨hib, rfl⟩
    obtain ⟨b2, hrec, hlen⟩ := @ih (i + 1) (block.set i 0)
      (by simp; omega)
    refine ⟨b2, ?_, by rw [hlen]; simp⟩
    rw [zeroLoop, hs, exbind_ok, hrec]

/-- `next_envelope_block` succeeds whenever the cursor invariant holds and
the requested length fits in the scratch block; the block keeps its length
and the voice only advances its cursor. -/
lemma next_envelope_block_total {v : Voice} {block : List ℚ} {bl : Nat}
    (hinv : v.envelope_idx ≤ v.envelope_data.length) (hbl : bl ≤ block.length) :
    ∃ p : List ℚ × Voice, v.next_envelope_block block bl = Except.ok p ∧
      p.1.length = block.length ∧
      p.2 = { v with envelope_idx :=
        v.envelope_idx + min (v.envelope_data.length - v.envelope_idx) bl } := by
  have hcs : checkedSub v.envelope_data.length v.envelope_idx
      = Except.ok (v.envelope_data.length - v.envelope_idx) := checkedSub_ok.mpr ⟨hinv, rfl⟩
  obtain ⟨b1, hcp, hlen1⟩ := @copyEnvLoop_total v.envelope_data
    v.envelope_idx (min (v.envelope_data.length - v.envelope_idx) bl)
    0 block (by omega) (by omega)
  have hcs2 : checkedSub bl (min (v.envelope_data.length - v.envelope_idx) bl)
      = Except.ok (bl - min (v.envelope_data.length - v.envelope_idx) bl) :=
    checkedSub_ok.mpr ⟨by omega, rfl⟩
  obtain ⟨b2, hz, hlen2⟩ := @zeroLoop_total
    (bl - min (v.envelope_data.length - v.envelope_idx) bl) 0
    b1 (by omega)
  refine ⟨(b2, { v with envelope_idx :=
    v.envelope_idx + min (v.envelope_data.length - v.envelope_idx) bl }), ?_,
    by rw [hlen2, hlen1], rfl⟩
  rw [Voice.next_envelope_block]
  dsimp only
  rw [hcs, exbind_ok, hcp, exbind_ok, hcs2, exbind_ok, hz, exbind_ok]

/-- Post-hoc guarantees of a successful `processSlots` run. -/
lemma processSlots_ok {sinf : ℚ → ℚ} {tauQ : ℚ} {bs bl : Nat} :
    ∀ {slots : List (Option Voice)} {buffer scratch : List ℚ}
      {slots2 : List (Option Voice)} {buf2 scr2 : List ℚ},
      processSlots sinf tauQ bs bl slots buffer scratch
        = Except.ok (slots2, buf2, scr2) →
      slots2.length = slots.length ∧
      buf2.length = buffer.length ∧
      scr2.length = scratch.length ∧
      (∀ v2 : Voice, some v2 ∈ slots2 → v2.envelope_idx ≤ v2.envelope_data.length) ∧
      (∀ j, (j < 2 * bs ∨ 2 * (bs + bl) ≤ j) → buf2[j]? = buffer[j]?) ∧
      ((∀ x ∈ slots, x = none) → slots2 = slots ∧ buf2 = buffer ∧ scr2 = scratch) := by
  intro slots
  induction slots with
  | nil =>
    intro buffer scratch slots2 buf2 scr2 h
    rw [processSlots] at h
    simp only [Except.ok.injEq, Prod.mk.injEq] at h
    obtain ⟨rfl, rfl, rfl⟩ := h
    exact ⟨rfl, rfl, rfl, by simp, fun j _ => rfl, fun _ => ⟨rfl, rfl, rfl⟩⟩
  | cons slot rest ih =>
    intro buffer scratch slots2 buf2 scr2 h
    match slot with
    | none =>
      rw [processSlots] at h
      cases hrec : processSlots sinf tauQ bs bl rest buffer scratch with
      | error er => rw [hrec] at h; simp [exbind_error] at h
      | ok r =>
        obtain ⟨rs, rbuf, rscr⟩ := r
        rw [hrec, exbind_ok] at h
        simp only [Except.ok.injEq, Prod.mk.injEq] at h
        obtain ⟨he1, he2, he3⟩ := h
        subst he1
        subst he2
        subst he3
        obtain ⟨h1, h2, h3, h4, h5, h6⟩ := ih hrec
        refine ⟨by simpa using h1, h2, h3, ?_, h5, ?_⟩
        · intro v2 hv2
          simp only [List.mem_cons] at hv2
          rcases hv2 with hv2 | hv2
          · exact absurd hv2.symm (by simp)
          · exact h4 v2 hv2
        · intro hall
          obtain ⟨ha, hb, hc⟩ := h6 (fun x hx => hall x (by simp [hx]))
          exact ⟨by rw [ha], hb, hc⟩
    | some v =>
      rw [processSlots] at h
      cases heb : v.next_envelope_block scratch bl with
      | error er => rw [heb] at h; simp [exbind_error] at h
      | ok eb =>
        rw [heb, exbind_ok] at h
        cases hrl : renderLoop sinf tauQ eb.1 0 bs bl buffer eb.2.oscillator with
        | error er => rw [hrl] at h; simp [exbind_error] at h
        | ok rl =>
          rw [hrl, exbind_ok] at h
          cases hrec : processSlots sinf tauQ bs bl rest rl.1 eb.1 with
          | error er => rw [hrec] at h; simp [exbind_error] at h
          | ok r =>
            obtain ⟨rs, rbuf, rscr⟩ := r
            rw [hrec, exbind_ok] at h
            simp only [Except.ok.injEq, Prod.mk.injEq] at h
            obtain ⟨he1, he2, he3⟩ := h
            subst he1
            subst he2
            subst he3
            obtain ⟨h1, h2, h3, h4, h5, h6⟩ := ih hrec
            obtain ⟨hinv0, hveq, hblen⟩ := @next_envelope_block_ok
              v scratch eb.1 bl eb.2 (by rw [heb])
            obtain ⟨hrlen, hrloc⟩ := @renderLoop_ok
              sinf tauQ eb.1 bl 0 bs buffer eb.2.oscillator rl.1 rl.2 (by rw [hrl])
            refine ⟨by simpa using h1, by rw [h2, hrlen], by rw [h3, hblen], ?_, ?_, ?_⟩
            · intro v2 hv2
              simp only [List.mem_cons] at hv2
              rcases hv2 with hv2 | hv2
              · have hv2' : v2 = { eb.2 with oscillator := rl.2 } := by
                  have := hv2.symm
                  simpa [eq_comm] using this
                subst hv2'
                rw [hveq]
                simp
                omega
              · exact h4 v2 hv2
            · intro j hj
              rw [h5 j hj, hrloc j hj]
            · intro hall
              exact absurd (hall (some v) (by simp)) (by simp)

/-- `processSlots` succeeds whenever every voice satisfies the cursor
invariant, the requested length fits the scratch block, and the buffer
covers the sub-block. -/
lemma processSlots_total {sinf : ℚ → ℚ} {tauQ : ℚ} {bs bl : Nat} :
    ∀ {slots : List (Option Voice)} {buffer scratch : List ℚ},
      (∀ v : Voice, some v ∈ slots → v.envelope_idx ≤ v.envelope_data.length) →
      bl ≤ scratch.length → 2 * (bs + bl) ≤ buffer.length →
      ∃ r, processSlots sinf tauQ bs bl slots buffer scratch = Except.ok r := by
  intro slots
  induction slots with
  | nil =>
    intro buffer scratch _ _ _
    exact ⟨_, by rw [processSlots]⟩
  | cons slot rest ih =>
    intro buffer scratch hinv hscr hbuf
    match slot with
    | none =>
      obtain ⟨r, hrec⟩ := ih (fun v hv => hinv v (by simp [hv])) hscr hbuf
      exact ⟨_, by rw [processSlots, hrec, exbind_ok]⟩
    | some v =>
      obtain ⟨eb, heb, heblen, -⟩ := @next_envelope_block_total
        v scratch bl (hinv v (by simp)) hscr
      obtain ⟨rl, hrl⟩ : ∃ p : List ℚ × SineOsc,
          renderLoop sinf tauQ eb.1 0 bs bl buffer eb.2.oscillator = Except.ok p := by
        obtain ⟨b2, o2, hh⟩ := @renderLoop_total sinf tauQ eb.1 bl 0
          bs buffer eb.2.oscillator (by omega) hbuf
        exact ⟨(b2, o2), hh⟩
      have hrlen : rl.1.length = buffer.length := by
        obtain ⟨b2, o2⟩ := rl
        exact (renderLoop_ok hrl).1
      obtain ⟨r, hrec⟩ := @ih rl.1 eb.1
        (fun v hv => hinv v (by simp [hv])) (by omega) (by rw [hrlen]; omega)
      exact ⟨_, by rw [processSlots, heb, exbind_ok, hrl, exbind_ok, hrec, exbind_ok]⟩

/-- Post-hoc guarantees of a successful `process_block` call. -/
lemma process_block_ok {sinf : ℚ → ℚ} {tauQ : ℚ} {vh : VoiceHandler}
    {buffer : List ℚ} {bs be : Nat} {vh2 : VoiceHandler} {buf2 : List ℚ}
    (h : VoiceHandler.process_block sinf tauQ vh buffer bs be = Except.ok (vh2, buf2)) :
    bs ≤ be ∧
    vh2.voices.length = vh.voices.length ∧
    vh2.id_counter = vh.id_counter ∧
    vh2.sample_rate = vh.sample_rate ∧
    vh2.envelope_data = vh.envelope_data ∧
    buf2.length = buffer.length ∧
    (∀ v2 : Voice, some v2 ∈ vh2.voices → v2.envelope_idx ≤ v2.envelope_data.length) ∧
    (∀ j, (j < 2 * bs ∨ 2 * be ≤ j) → buf2[j]? = buffer[j]?) ∧
    ((∀ x ∈ vh.voices, x = none) → vh2 = vh ∧ buf2 = buffer) := by
  rw [VoiceHandler.process_block] at h
  cases hcs : checkedSub be bs with
  | error er => rw [hcs] at h; simp [exbind_error] at h
  | ok bl =>
    rw [hcs, exbind_ok] at h
    obtain ⟨hle, rfl⟩ := checkedSub_ok.mp hcs
    cases hps : processSlots sinf tauQ bs (be - bs) vh.voices buffer
        (List.replicate MAX_BLOCK_SIZE 0) with
    | error er => rw [hps] at h; simp [exbind_error] at h
    | ok r =>
      obtain ⟨rs, rbuf, rscr⟩ := r
      rw [hps, exbind_ok] at h
      simp only [Except.ok.injEq, Prod.mk.injEq] at h
      obtain ⟨he1, he2⟩ := h
      subst he1
      subst he2
      obtain ⟨h1, h2, h3, h4, h5, h6⟩ := processSlots_ok hps
      refine ⟨hle, by simpa using h1, rfl, rfl, rfl, h2, by simpa using h4, ?_, ?_⟩
      · intro j hj
        refine h5 j ?_
        rcases hj with hj | hj
        · exact Or.inl hj
        · right
          omega
      · intro hall
        obtain ⟨ha, hb, -⟩ := h6 hall
        constructor
        · rw [show ({ vh with voices := rs } : VoiceHandler)
            = { vh with voices := vh.voices } from by rw [ha]]
        · exact hb

/-- `process_block` succeeds whenever the pool satisfies the cursor
invariant and the sub-block is well-formed and inside the buffer. -/
lemma process_block_total {sinf : ℚ → ℚ} {tauQ : ℚ} {vh : VoiceHandler}
    {buffer : List ℚ} {bs be : Nat}
    (hinv : ∀ v : Voice, some v ∈ vh.voices → v.envelope_idx ≤ v.envelope_data.length)
    (hse : bs ≤ be) (hbl : be - bs ≤ MAX_BLOCK_SIZE) (hbuf : 2 * be ≤ buffer.length) :
    ∃ p : VoiceHandler × List ℚ,
      VoiceHandler.process_block sinf tauQ vh buffer bs be = Except.ok p := by
  have hcs : checkedSub be bs = Except.ok (be - bs) := checkedSub_ok.mpr ⟨hse, rfl⟩
  obtain ⟨r, hps⟩ := @processSlots_total sinf tauQ bs
    (be - bs) vh.voices buffer
    (List.replicate MAX_BLOCK_SIZE 0) hinv (by simpa using hbl)
    (by omega)
  exact ⟨_, by rw [VoiceHandler.process_block, hcs, exbind_ok, hps, exbind_ok]⟩

/-! ### `terminate_finished_voices` bookkeeping -/

lemma terminate_voices_length (vh : VoiceHandler) :
    (VoiceHandler.terminate_finished_voices vh).voices.length = vh.voices.length := by
  simp [VoiceHandler.terminate_finished_voices]

lemma terminate_mem {vh : VoiceHandler} {x : Option Voice}
    (h : x ∈ (VoiceHandler.terminate_finished_voices vh).voices) :
    x = none ∨ x ∈ vh.voices := by
  simp only [VoiceHandler.terminate_finished_voices, List.mem_map] at h
  obtain ⟨s, hs, heq⟩ := h
  match s with
  | none => exact Or.inl heq.symm
  | some v =>
    by_cases hfin : v.envelope_is_finished
    · simp [hfin] at heq
      exact Or.inl heq.symm
    · simp [hfin] at heq
      subst heq
      exact Or.inr hs

lemma terminate_inv {vh : VoiceHandler}
    (hinv : ∀ v : Voice, some v ∈ vh.voices → v.envelope_idx ≤ v.envelope_data.length) :
    ∀ v : Voice, some v ∈ (VoiceHandler.terminate_finished_voices vh).voices →
      v.envelope_idx ≤ v.envelope_data.length := by
  intro v hv
  rcases terminate_mem hv with hnone | hmem
  · exact absurd hnone (by simp)
  · exact hinv v hmem

lemma terminate_all_none {vh : VoiceHandler}
    (h : ∀ x ∈ vh.voices, x = none) :
    ∀ x ∈ (VoiceHandler.terminate_finished_voices vh).voices, x = none := by
  intro x hx
  rcases terminate_mem hx with hnone | hmem
  · exact hnone
  · exact h x hmem

/-! ### Invariant preservation through voice starts and event dispatch -/

lemma start_voice_inv {tauQ : ℚ} {n2f : ℚ → ℚ} {vh : VoiceHandler} {note : ℚ}
    (hinv : ∀ v : Voice, some v ∈ vh.voices → v.envelope_idx ≤ v.envelope_data.length) :
    ∀ v : Voice, some v ∈ (VoiceHandler.start_voice tauQ n2f vh note).1.voices →
      v.envelope_idx ≤ v.envelope_data.length := by
  intro v hv
  cases hp : position? (fun x => x.isNone) vh.voices with
  | some j =>
    obtain ⟨hveq, -, -, -, -⟩ := @start_voice_free tauQ n2f _ note _ hp
    rw [hveq] at hv
    rcases List.mem_or_eq_of_mem_set hv with hmem | heq
    · exact hinv v hmem
    · have : v = startVoiceNew tauQ n2f vh note := by simpa using heq
      subst this
      simp [startVoiceNew]
  | none =>
    obtain ⟨hveq, -, -, -, -⟩ := @start_voice_steal tauQ n2f _ note hp
    rw [hveq] at hv
    rcases List.mem_or_eq_of_mem_set hv with hmem | heq
    · exact hinv v hmem
    · have : v = startVoiceNew tauQ n2f vh note := by simpa using heq
      subst this
      simp [startVoiceNew]

lemma events_loop_inv {tauQ : ℚ} {n2f : ℚ → ℚ} :
    ∀ {fuel : Nat} {vh : VoiceHandler} {ne : Option NoteEvent} {q : List NoteEvent}
      {s e : Nat} {r : EventsResult},
      events_loop tauQ n2f fuel vh ne q s e = Except.ok r →
      (∀ v : Voice, some v ∈ vh.voices → v.envelope_idx ≤ v.envelope_data.length) →
      ∀ v : Voice, some v ∈ r.vh.voices → v.envelope_idx ≤ v.envelope_data.length := by
  intro fuel
  induction fuel with
  | zero =>
    intro vh ne q s e r h
    rw [events_loop_zero] at h
    exact absurd h (by simp)
  | succ fuel ih =>
    intro vh ne q s e r h hinv
    match ne with
    | none =>
      rw [events_loop_none] at h
      simp only [Except.ok.injEq] at h
      subst h
      exact hinv
    | some (NoteEvent.NoteOn t d) =>
      rw [events_loop_on] at h
      by_cases ht : t ≤ s
      · rw [if_pos ht] at h
        cases hrec : events_loop tauQ n2f fuel
            (VoiceHandler.start_voice tauQ n2f vh d.note).1 q.head? q.tail s e with
        | error er => rw [hrec] at h; simp [exbind_error] at h
        | ok r' =>
          rw [hrec, exbind_ok] at h
          simp only [Except.ok.injEq] at h
          subst h
          exact ih (r := r') hrec (start_voice_inv hinv)
      · rw [if_neg ht] at h
        by_cases ht2 : t < e
        · rw [if_pos ht2] at h
          simp only [Except.ok.injEq] at h
          subst h
          exact hinv
        · rw [if_neg ht2] at h
          simp only [Except.ok.injEq] at h
          subst h
          exact hinv
    | some (NoteEvent.NoteOff t d) =>
      rw [events_loop_off] at h
      by_cases ht : t ≤ s
      · rw [if_pos ht] at h
        exact absurd h (by simp)
      · rw [if_neg ht] at h
        by_cases ht2 : t < e
        · rw [if_pos ht2] at h
          simp only [Except.ok.injEq] at h
          subst h
          exact hinv
        · rw [if_neg ht2] at h
          simp only [Except.ok.injEq] at h
          subst h
          exact hinv

set_option maxHeartbeats 2000000 in
/-- Post-hoc guarantees of a successful render-loop run entered with the
loop invariant `block_end = min (block_start + MAX_BLOCK_SIZE, buffer_len)`:
the pending events decompose into dispatched ++ held ++ remainder, every
dispatched event was due inside the buffer, the finally-held event is not,
every recorded sub-block is well-formed (nonempty, within the buffer, at
most `MAX_BLOCK_SIZE` long, ending at the cap or exactly at a pending
event's timing), the buffer keeps its length and is untouched before
`block_start`, and an all-empty pool stays empty when nothing was
dispatched. -/
lemma process_loop_ok_spec {sinf : ℚ → ℚ} {tauQ : ℚ} {n2f : ℚ → ℚ} {len : Nat} :
    ∀ {fuel : Nat} {vh : VoiceHandler} {ne : Option NoteEvent} {q : List NoteEvent}
      {buffer : List ℚ} {s : Nat} {r : ProcResult},
      process_loop sinf tauQ n2f len fuel vh ne q buffer s
        (min (s + MAX_BLOCK_SIZE) len) = Except.ok r →
      (len ≤ s → ∀ ev, ne = some ev → len ≤ ev.timing) →
      (ne.toList ++ q = r.dispatched ++ r.next_event.toList ++ r.queue) ∧
      (∀ ev ∈ r.dispatched, ev.timing < len) ∧
      (∀ ev, r.next_event = some ev → len ≤ ev.timing) ∧
      (∀ b ∈ r.blocks, s ≤ b.1 ∧ b.1 < b.2 ∧ b.2 ≤ len ∧
        b.2 - b.1 ≤ MAX_BLOCK_SIZE ∧
        (b.2 = min (b.1 + MAX_BLOCK_SIZE) len ∨
          ∃ ev ∈ ne.toList ++ q, b.1 < ev.timing ∧
            ev.timing < min (b.1 + MAX_BLOCK_SIZE) len ∧ b.2 = ev.timing)) ∧
      (r.buffer.length = buffer.length) ∧
      (∀ j, j < 2 * s → r.buffer[j]? = buffer[j]?) ∧
      ((∀ x ∈ vh.voices, x = none) → r.dispatched = [] →
        ∀ x ∈ r.vh.voices, x = none) := by
  intro fuel
  induction fuel with
  | zero =>
    intro vh ne q buffer s r h _
    rw [process_loop_zero] at h
    exact absurd h (by simp)
  | succ fuel ih =>
    intro vh ne q buffer s r h hne0
    have hM : MAX_BLOCK_SIZE = 64 := rfl
    rw [process_loop_succ] at h
    by_cases hs : s < len
    · rw [if_pos hs] at h
      cases her : events_loop tauQ n2f (q.length + 2) vh ne q s
          (min (s + MAX_BLOCK_SIZE) len) with
      | error er => rw [her] at h; simp [exbind_error] at h
      | ok er =>
        rw [her, exbind_ok] at h
        cases hcs : checkedSub er.block_end s with
        | error e2 => rw [hcs] at h; simp [exbind_error] at h
        | ok diff =>
          rw [hcs, exbind_ok] at h
          cases hpb : VoiceHandler.process_block sinf tauQ er.vh buffer s
              er.block_end with
          | error e3 => rw [hpb] at h; simp [exbind_error] at h
          | ok pb =>
            obtain ⟨vh2, buf2⟩ := pb
            rw [hpb, exbind_ok] at h
            cases hrec : process_loop sinf tauQ n2f len fuel
                vh2.terminate_finished_voices er.next_event er.queue buf2
                er.block_end (min (er.block_end + MAX_BLOCK_SIZE) len) with
            | error e4 => rw [hrec] at h; simp [exbind_error] at h
            | ok r' =>
              rw [hrec, exbind_ok] at h
              simp only [Except.ok.injEq] at h
              subst h
              obtain ⟨ha, hb, hc, hd, hsh, hempty⟩ := events_loop_ok her
              have hslt : s < er.block_end := hd (by omega)
              have hbele : er.block_end ≤ min (s + MAX_BLOCK_SIZE) len := by
                rcases hsh with heq | ⟨ev, -, -, hlt, heq⟩
                · omega
                · omega
              obtain ⟨-, -, -, -, -, hpb6, hpb7, hpb8, hpb9⟩ := process_block_ok hpb
              have hne0' : len ≤ er.block_end →
                  ∀ ev, er.next_event = some ev → len ≤ ev.timing := by
                intro hle ev hev
                have := hc ev hev
                omega
              obtain ⟨iha, ihb, ihc, ihd, ihe, ihf, ihg⟩ :=
                @ih vh2.terminate_finished_voices er.next_event
                  er.queue buf2 er.block_end r'
                  hrec hne0'
              refine ⟨?_, ?_, ihc, ?_, ?_, ?_, ?_⟩
              · show ne.toList ++ q = (er.dispatched ++ r'.dispatched) ++
                  r'.next_event.toList ++ r'.queue
                rw [ha]
                rw [List.append_assoc] at iha ⊢
                rw [iha]
                simp [List.append_assoc]
              · intro ev hev
                show ev.timing < len
                rcases List.mem_append.mp hev with hev | hev
                · have := hb ev hev
                  omega
                · exact ihb ev hev
              · intro b hbmem
                rcases List.mem_cons.mp hbmem with rfl | hbmem
                · refine ⟨le_refl _, hslt, by omega, by omega, ?_⟩
                  rcases hsh with heq | ⟨ev, hevne, hev1, hev2, heq⟩
                  · exact Or.inl heq
                  · refine Or.inr ⟨ev, ?_, hev1, hev2, heq⟩
                    rw [ha]
                    have : ev ∈ er.next_event.toList := by simp [hevne]
                    simp [this]
                · obtain ⟨hd1, hd2, hd3, hd4, hd5⟩ := ihd b hbmem
                  refine ⟨by omega, hd2, hd3, hd4, ?_⟩
                  rcases hd5 with heq | ⟨ev, hevmem, hev1, hev2, heq⟩
                  · exact Or.inl heq
                  · refine Or.inr ⟨ev, ?_, hev1, hev2, heq⟩
                    rw [ha]
                    simp only [List.mem_append] at hevmem ⊢
                    tauto
              · show r'.buffer.length = buffer.length
                rw [ihe, hpb6]
              · intro j hj
                show r'.buffer[j]? = buffer[j]?
                rw [ihf j (by omega), hpb8 j (Or.inl (by omega))]
              · intro hall hdisp
                have hdisp' := List.append_eq_nil.mp hdisp
                have hvheq : er.vh = vh := hempty hdisp'.1
                have hall2 : ∀ x ∈ er.vh.voices, x = none := by
                  rw [hvheq]
                  exact hall
                obtain ⟨hvh2, -⟩ := hpb9 hall2
                have hall3 : ∀ x ∈ vh2.terminate_finished_voices.voices, x = none := by
                  apply terminate_all_none
                  rw [hvh2]
                  exact hall2
                exact ihg hall3 hdisp'.2
    · rw [if_neg hs] at h
      simp only [Except.ok.injEq] at h
      subst h
      refine ⟨by simp, by simp, ?_, by simp, rfl, fun j _ => rfl, ?_⟩
      · intro ev hev
        exact hne0 (by omega) ev hev
      · intro hall _
        exact hall

set_option maxHeartbeats 2000000 in
/-- With the cursor invariant, a buffer covering `2 * buffer_len` samples
and enough fuel, the render loop either succeeds or aborts on the NoteOff
`unimplemented!` path — in which case a NoteOff due inside the buffer was
pending.  No other abort (out-of-bounds, underflow, fuel) is possible. -/
lemma process_loop_total {sinf : ℚ → ℚ} {tauQ : ℚ} {n2f : ℚ → ℚ} {len : Nat} :
    ∀ {fuel : Nat} {vh : VoiceHandler} {ne : Option NoteEvent} {q : List NoteEvent}
      {buffer : List ℚ} {s : Nat},
      (∀ v : Voice, some v ∈ vh.voices → v.envelope_idx ≤ v.envelope_data.length) →
      2 * len ≤ buffer.length →
      1 ≤ fuel → len ≤ s + (fuel - 1) →
      (∃ r, process_loop sinf tauQ n2f len fuel vh ne q buffer s
        (min (s + MAX_BLOCK_SIZE) len) = Except.ok r) ∨
      (process_loop sinf tauQ n2f len fuel vh ne q buffer s
          (min (s + MAX_BLOCK_SIZE) len) = Except.error RtPanic.unimplemented ∧
        ∃ ev ∈ ne.toList ++ q, ev.timing < len ∧ ev.isNoteOn = false) := by
  intro fuel
  induction fuel with
  | zero =>
    intro vh ne q buffer s _ _ h1 _
    omega
  | succ fuel ih =>
    intro vh ne q buffer s hinv hbuf _ hfuel
    have hM : MAX_BLOCK_SIZE = 64 := rfl
    have hfuel' : len ≤ s + fuel := by simpa using hfuel
    by_cases hs : s < len
    · have hfone : 1 ≤ fuel := by omega
      rcases @events_loop_cases tauQ n2f (q.length + 2)
          vh ne q s (min (s + MAX_BLOCK_SIZE) len)
          (le_refl _) with ⟨er, her⟩ | ⟨herr, ev, hmem, hts, hoff⟩
      · obtain ⟨ha, hb, hc, hd, hsh, -⟩ := events_loop_ok her
        have hslt : s < er.block_end := hd (by omega)
        have hflen : len ≤ er.block_end + (fuel - 1) := by omega
        have hbele : er.block_end ≤ min (s + MAX_BLOCK_SIZE) len := by
          rcases hsh with heq | ⟨ev, -, -, hlt, heq⟩ <;> omega
        have hcs : checkedSub er.block_end s = Except.ok (er.block_end - s) :=
          checkedSub_ok.mpr ⟨by omega, rfl⟩
        have hinv2 : ∀ v : Voice, some v ∈ er.vh.voices →
            v.envelope_idx ≤ v.envelope_data.length := events_loop_inv her hinv
        obtain ⟨pb, hpb⟩ := @process_block_total sinf tauQ er.vh buffer
          s er.block_end hinv2 (by omega) (by omega) (by omega)
        obtain ⟨vh2, buf2⟩ := pb
        obtain ⟨-, -, -, -, -, hpb6, hpb7, -, -⟩ := process_block_ok hpb
        have hinv3 : ∀ v : Voice, some v ∈ vh2.terminate_finished_voices.voices →
            v.envelope_idx ≤ v.envelope_data.length := terminate_inv hpb7
        have hbuf2 : 2 * len ≤ buf2.length := by rw [hpb6]; exact hbuf
        rcases @ih vh2.terminate_finished_voices er.next_event
            er.queue buf2 er.block_end hinv3
            hbuf2 hfone hflen
          with ⟨r, hrec⟩ | ⟨herr2, ev, hmem2, hts2, hoff2⟩
        · refine Or.inl ⟨⟨r.buffer, r.vh, r.next_event, r.queue,
            (s, er.block_end) :: r.blocks, er.dispatched ++ r.dispatched⟩, ?_⟩
          rw [process_loop_succ, if_pos hs, her, exbind_ok, hcs, exbind_ok, hpb,
            exbind_ok, hrec, exbind_ok]
        · refine Or.inr ⟨?_, ev, ?_, hts2, hoff2⟩
          · rw [process_loop_succ, if_pos hs, her, exbind_ok, hcs, exbind_ok, hpb,
              exbind_ok, herr2, exbind_error]
          · rw [ha]
            simp only [List.mem_append] at hmem2 ⊢
            tauto
      · refine Or.inr ⟨?_, ev, hmem, by omega, hoff⟩
        rw [process_loop_succ, if_pos hs, herr, exbind_error]
    · exact Or.inl ⟨⟨buffer, vh, ne, q, [], []⟩,
        by rw [process_loop_succ, if_neg hs]⟩

/-! ### Claim C10 (no out-of-bounds panic in the callback) -/

/-- Claim C10: starting from any pool whose voices satisfy the envelope
cursor invariant (which holds in every reachable state), the render
callback never hits an out-of-bounds access, an underflowing `usize`
subtraction, or the fuel bound: it either completes — and then every
rendered sub-block satisfies `block_start < block_end` and
`block_end - block_start ≤ MAX_BLOCK_SIZE`, so the 64-entry scratch
envelope array is only indexed in bounds — or aborts on the explicit
NoteOff `unimplemented!` path. -/
theorem process_no_out_of_bounds (sinf : ℚ → ℚ) (tauQ : ℚ) (n2f : ℚ → ℚ)
    (vh : VoiceHandler) (queue : List NoteEvent) (buffer : List ℚ)
    (hinv : ∀ v : Voice, some v ∈ vh.voices →
      v.envelope_idx ≤ v.envelope_data.length) :
    (∃ r, process sinf tauQ n2f vh queue buffer = Except.ok r ∧
      ∀ b ∈ r.blocks, b.1 < b.2 ∧ b.2 - b.1 ≤ MAX_BLOCK_SIZE) ∨
    process sinf tauQ n2f vh queue buffer = Except.error RtPanic.unimplemented := by
  have hbuf : 2 * (buffer.length / 2) ≤ buffer.length := by omega
  rcases @process_loop_total sinf tauQ n2f
      (buffer.length / 2) (buffer.length / 2 + 1) vh
      queue.head? queue.tail buffer 0
      hinv hbuf (by omega) (by omega)
    with ⟨r, hr⟩ | ⟨herr, -⟩
  · left
    refine ⟨r, hr, ?_⟩
    have hspec := process_loop_ok_spec hr (by intro h0 ev _; omega)
    intro b hbmem
    obtain ⟨-, h2, -, h4, -⟩ := hspec.2.2.2.1 b hbmem
    exact ⟨h2, h4⟩
  · exact Or.inr herr

/-- Witness for C10 at the empty pool, empty queue and empty buffer. -/
theorem process_no_out_of_bounds_witness :
    (∀ v : Voice, some v ∈ (⟨List.replicate 16 none, 0, 0, []⟩ : VoiceHandler).voices →
      v.envelope_idx ≤ v.envelope_data.length) ∧
    ((∃ r, process (fun _ => 0) 0 (fun _ => 0) ⟨List.replicate 16 none, 0, 0, []⟩ [] []
        = Except.ok r ∧ ∀ b ∈ r.blocks, b.1 < b.2 ∧ b.2 - b.1 ≤ MAX_BLOCK_SIZE) ∨
      process (fun _ => 0) 0 (fun _ => 0) ⟨List.replicate 16 none, 0, 0, []⟩ [] []
        = Except.error RtPanic.unimplemented) :=
  ⟨fun v hv => absurd (List.eq_of_mem_replicate hv) (by simp),
    process_no_out_of_bounds (fun _ => 0) 0 (fun _ => 0) _ [] []
      (fun v hv => absurd (List.eq_of_mem_replicate hv) (by simp))⟩

/-! ### Claim C9 (late events are consumed and silently discarded) -/

/-- Claim C9: when no NoteOff is due inside the buffer, the callback
completes; the channel contents split into the dispatched events, the
event still held in `next_event` at return (consumed and dropped) and the
untouched remainder; the dispatched events are exactly the dequeued events
with `timing < buffer_len`; the held (discarded) event has
`timing ≥ buffer_len`; and if the pool was empty and nothing was
dispatched, no voice was started. -/
theorem process_late_event_discard (sinf : ℚ → ℚ) (tauQ : ℚ) (n2f : ℚ → ℚ)
    (vh : VoiceHandler) (queue : List NoteEvent) (buffer : List ℚ)
    (hinv : ∀ v : Voice, some v ∈ vh.voices →
      v.envelope_idx ≤ v.envelope_data.length)
    (hno : ∀ ev ∈ queue, ev.timing < buffer.length / 2 → ev.isNoteOn = true) :
    ∃ r, process sinf tauQ n2f vh queue buffer = Except.ok r ∧
      queue = r.dispatched ++ r.next_event.toList ++ r.queue ∧
      (∀ ev ∈ r.dispatched, ev.timing < buffer.length / 2) ∧
      (∀ ev ∈ r.next_event.toList, buffer.length / 2 ≤ ev.timing) ∧
      ((∀ x ∈ vh.voices, x = none) → r.dispatched = [] →
        ∀ x ∈ r.vh.voices, x = none) := by
  have hbuf : 2 * (buffer.length / 2) ≤ buffer.length := by omega
  rcases @process_loop_total sinf tauQ n2f
      (buffer.length / 2) (buffer.length / 2 + 1) vh
      queue.head? queue.tail buffer 0
      hinv hbuf (by omega) (by omega)
    with ⟨r, hr⟩ | ⟨herr, ev, hmem, hts, hoff⟩
  · obtain ⟨ha, hb, hc, -, -, -, hg⟩ := process_loop_ok_spec hr (by intro h0 ev _; omega)
    refine ⟨r, hr, ?_, hb, ?_, hg⟩
    · rw [← ha, head?_toList_append_tail]
    · intro ev hev
      simp only [Option.mem_toList, Option.mem_def] at hev
      exact hc ev hev
  · exfalso
    rw [head?_toList_append_tail] at hmem
    have := hno ev hmem hts
    rw [this] at hoff
    simp at hoff

/-- Witness for C9: one pending NoteOn due past the end of a one-frame
buffer is dequeued, held and discarded without effect. -/
theorem process_late_event_discard_witness :
    (∀ v : Voice, some v ∈ (⟨List.replicate 16 none, 0, 0, []⟩ : VoiceHandler).voices →
      v.envelope_idx ≤ v.envelope_data.length) ∧
    (∀ ev ∈ [NoteEvent.NoteOn 5 ⟨0⟩], ev.timing < ([(0:ℚ), 0] : List ℚ).length / 2 →
      ev.isNoteOn = true) ∧
    (∃ r, process (fun _ => 0) 0 (fun _ => 0) ⟨List.replicate 16 none, 0, 0, []⟩
        [NoteEvent.NoteOn 5 ⟨0⟩] [(0:ℚ), 0] = Except.ok r ∧
      [NoteEvent.NoteOn 5 ⟨0⟩] = r.dispatched ++ r.next_event.toList ++ r.queue ∧
      (∀ ev ∈ r.dispatched, ev.timing < ([(0:ℚ), 0] : List ℚ).length / 2) ∧
      (∀ ev ∈ r.next_event.toList, ([(0:ℚ), 0] : List ℚ).length / 2 ≤ ev.timing) ∧
      ((∀ x ∈ (⟨List.replicate 16 none, 0, 0, []⟩ : VoiceHandler).voices, x = none) →
        r.dispatched = [] →
        ∀ x ∈ r.vh.voices, x = none)) :=
  ⟨fun v hv => absurd (List.eq_of_mem_replicate hv) (by simp),
    by intro ev hev hlt; simp at hev; subst hev; simp [NoteEvent.timing] at hlt,
    process_late_event_discard (fun _ => 0) 0 (fun _ => 0) _ _ _
      (fun v hv => absurd (List.eq_of_mem_replicate hv) (by simp))
      (by intro ev hev hlt; simp at hev; subst hev; simp [NoteEvent.timing] at hlt)⟩

/-! ### Claim C7 (due NoteOff aborts, due NoteOn starts a voice) -/

/-- Claim C7: when the dispatch loop sees a pending NoteOff whose timing is
at or before the current block start it aborts on the `unimplemented!`
path; a NoteOn in the same position instead calls `start_voice` with the
event's note and continues dispatching; and a whole callback whose first
channel event is a NoteOff due at the buffer start aborts. -/
theorem note_off_fails_fast :
    (∀ (tauQ : ℚ) (n2f : ℚ → ℚ) (fuel : Nat) (vh : VoiceHandler)
      (q : List NoteEvent) (s e t : Nat) (d : NoteEventData), t ≤ s →
      events_loop tauQ n2f (fuel + 1) vh (some (NoteEvent.NoteOff t d)) q s e =
        Except.error RtPanic.unimplemented) ∧
    (∀ (tauQ : ℚ) (n2f : ℚ → ℚ) (fuel : Nat) (vh : VoiceHandler)
      (q : List NoteEvent) (s e t : Nat) (d : NoteEventData), t ≤ s →
      events_loop tauQ n2f (fuel + 1) vh (some (NoteEvent.NoteOn t d)) q s e =
        (do
          let r ← events_loop tauQ n2f fuel
            (VoiceHandler.start_voice tauQ n2f vh d.note).1 q.head? q.tail s e
          Except.ok { r with dispatched := NoteEvent.NoteOn t d :: r.dispatched })) ∧
    (∀ (sinf : ℚ → ℚ) (tauQ : ℚ) (n2f : ℚ → ℚ) (vh : VoiceHandler)
      (q : List NoteEvent) (d : NoteEventData) (buffer : List ℚ),
      0 < buffer.length / 2 →
      process sinf tauQ n2f vh (NoteEvent.NoteOff 0 d :: q) buffer =
        Except.error RtPanic.unimplemented) := by
  refine ⟨?_, ?_, ?_⟩
  · intro tauQ n2f fuel vh q s e t d ht
    rw [events_loop_off, if_pos ht]
  · intro tauQ n2f fuel vh q s e t d ht
    rw [events_loop_on, if_pos ht]
  · intro sinf tauQ n2f vh q d buffer hlen
    have hmain : process_loop sinf tauQ n2f (buffer.length / 2)
        (buffer.length / 2 + 1) vh (NoteEvent.NoteOff 0 d :: q).head?
        (NoteEvent.NoteOff 0 d :: q).tail buffer 0
        (min MAX_BLOCK_SIZE (buffer.length / 2))
        = Except.error RtPanic.unimplemented := by
      rw [show (NoteEvent.NoteOff 0 d :: q).head? = some (NoteEvent.NoteOff 0 d)
          from rfl,
        show (NoteEvent.NoteOff 0 d :: q).tail = q from rfl,
        process_loop_succ, if_pos hlen,
        show q.length + 2 = (q.length + 1) + 1 from rfl,
        events_loop_off, if_pos (by omega : (0:Nat) ≤ 0), exbind_error]
    exact hmain

/-- Witness for C7: a due NoteOff at block start 0 aborts the dispatch
loop. -/
theorem note_off_fails_fast_witness :
    (0 : Nat) ≤ 0 ∧
    events_loop 0 (fun _ => 0) 1 ⟨List.replicate 16 none, 0, 0, []⟩
      (some (NoteEvent.NoteOff 0 ⟨0⟩)) [] 0 64 = Except.error RtPanic.unimplemented :=
  ⟨by decide, note_off_fails_fast.1 0 (fun _ => 0) 0 ⟨List.replicate 16 none, 0, 0, []⟩
    [] 0 64 0 ⟨0⟩ (by decide)⟩

/-! ### Claim C1 (sub-block partition of the render callback) -/

set_option maxHeartbeats 2000000 in
set_option maxRecDepth 8000 in
/-- Claim C1: on a 128-frame buffer with a single pending NoteOn at
timing 100 and an empty pool, the callback renders exactly the sub-blocks
`[0,64)`, `[64,100)`, `[100,128)` in that order, and the started voice
contributes nothing before frame 100: the rendered buffer is still zero at
every interleaved position of frames `0..99`.  In general every rendered
sub-block ends at `min (block_start + MAX_BLOCK_SIZE) buffer_len`, unless
it was shrunk to the timing of a pending event lying strictly inside the
sub-block. -/
theorem process_subblock_partition :
    (∀ (sinf : ℚ → ℚ) (tauQ : ℚ) (n2f : ℚ → ℚ) (idc : Nat) (sr : ℚ) (env : List ℚ)
      (d : NoteEventData),
      ∃ r : ProcResult,
        process sinf tauQ n2f ⟨List.replicate 16 none, idc, sr, env⟩
          [NoteEvent.NoteOn 100 d] (List.replicate 256 (0:ℚ)) = Except.ok r ∧
        r.blocks = [(0, 64), (64, 100), (100, 128)] ∧
        (∀ i, i < 100 → r.buffer[2 * i]? = some 0 ∧ r.buffer[2 * i + 1]? = some 0)) ∧
    (∀ (sinf : ℚ → ℚ) (tauQ : ℚ) (n2f : ℚ → ℚ) (vh : VoiceHandler)
      (queue : List NoteEvent) (buffer : List ℚ) (r : ProcResult),
      process sinf tauQ n2f vh queue buffer = Except.ok r →
      ∀ b ∈ r.blocks,
        b.2 = min (b.1 + MAX_BLOCK_SIZE) (buffer.length / 2) ∨
        ∃ ev ∈ queue, b.1 < ev.timing ∧
          ev.timing < min (b.1 + MAX_BLOCK_SIZE) (buffer.length / 2) ∧
          b.2 = ev.timing) := by
  constructor
  · intro sinf tauQ n2f idc sr env d
    have hinv0 : ∀ v : Voice,
        some v ∈ (⟨List.replicate 16 none, idc, sr, env⟩ : VoiceHandler).voices →
        v.envelope_idx ≤ v.envelope_data.length :=
      fun v hv => absurd (List.eq_of_mem_replicate hv) (by simp)
    have hinv1 : ∀ v : Voice,
        some v ∈ (VoiceHandler.start_voice tauQ n2f
          ⟨List.replicate 16 none, idc, sr, env⟩ d.note).1.voices →
        v.envelope_idx ≤ v.envelope_data.length := start_voice_inv hinv0
    obtain ⟨pb3, hpb3⟩ := @process_block_total sinf tauQ
      (VoiceHandler.start_voice tauQ n2f
        ⟨List.replicate 16 none, idc, sr, env⟩ d.note).1
      (List.replicate 256 (0:ℚ)) 100 128
      hinv1 (by omega) (by decide) (by rw [List.length_replicate])
    obtain ⟨vh3, buf3⟩ := pb3
    obtain ⟨-, -, -, -, -, hpb6, -, hpb8, -⟩ := process_block_ok hpb3
    have he1 : events_loop tauQ n2f (([] : List NoteEvent).length + 2)
        ⟨List.replicate 16 none, idc, sr, env⟩ (some (NoteEvent.NoteOn 100 d)) [] 0 64
        = Except.ok ⟨⟨List.replicate 16 none, idc, sr, env⟩,
          some (NoteEvent.NoteOn 100 d), [], 64, []⟩ := rfl
    have he2 : events_loop tauQ n2f (([] : List NoteEvent).length + 2)
        ⟨List.replicate 16 none, idc, sr, env⟩ (some (NoteEvent.NoteOn 100 d)) [] 64 128
        = Except.ok ⟨⟨List.replicate 16 none, idc, sr, env⟩,
          some (NoteEvent.NoteOn 100 d), [], 100, []⟩ := rfl
    have he3 : events_loop tauQ n2f (([] : List NoteEvent).length + 2)
        ⟨List.replicate 16 none, idc, sr, env⟩ (some (NoteEvent.NoteOn 100 d)) [] 100 128
        = Except.ok ⟨(VoiceHandler.start_voice tauQ n2f
            ⟨List.replicate 16 none, idc, sr, env⟩ d.note).1,
          none, [], 128, [NoteEvent.NoteOn 100 d]⟩ := rfl
    have hpb1 : VoiceHandler.process_block sinf tauQ
        ⟨List.replicate 16 none, idc, sr, env⟩ (List.replicate 256 (0:ℚ)) 0 64
        = Except.ok (⟨List.replicate 16 none, idc, sr, env⟩,
          List.replicate 256 (0:ℚ)) := rfl
    have hpb2 : VoiceHandler.process_block sinf tauQ
        ⟨List.replicate 16 none, idc, sr, env⟩ (List.replicate 256 (0:ℚ)) 64 100
        = Except.ok (⟨List.replicate 16 none, idc, sr, env⟩,
          List.replicate 256 (0:ℚ)) := rfl
    have hterm0 : VoiceHandler.terminate_finished_voices
        (⟨List.replicate 16 none, idc, sr, env⟩ : VoiceHandler)
        = (⟨List.replicate 16 none, idc, sr, env⟩ : VoiceHandler) := rfl
    have hexit : ∀ f : Nat, process_loop sinf tauQ n2f 128 (f + 1)
        vh3.terminate_finished_voices none [] buf3 128 (min (128 + MAX_BLOCK_SIZE) 128)
        = Except.ok ⟨buf3, vh3.terminate_finished_voices, none, [], [], []⟩ := by
      intro f
      rw [process_loop_succ, if_neg (by omega)]
    have hstep3 : ∀ f : Nat, process_loop sinf tauQ n2f 128 (f + 1 + 1)
        ⟨List.replicate 16 none, idc, sr, env⟩ (some (NoteEvent.NoteOn 100 d)) []
        (List.replicate 256 (0:ℚ)) 100 128
        = Except.ok ⟨buf3, vh3.terminate_finished_voices, none, [], [(100, 128)],
          [NoteEvent.NoteOn 100 d]⟩ := by
      intro f
      rw [process_loop_succ, if_pos (by omega), he3, exbind_ok]
      dsimp only
      rw [show checkedSub 128 100 = Except.ok 28 from rfl, exbind_ok, hpb3, exbind_ok]
      dsimp only
      rw [hexit f, exbind_ok]
      rfl
    have hstep2 : ∀ f : Nat, process_loop sinf tauQ n2f 128 (f + 1 + 1 + 1)
        ⟨List.replicate 16 none, idc, sr, env⟩ (some (NoteEvent.NoteOn 100 d)) []
        (List.replicate 256 (0:ℚ)) 64 128
        = Except.ok ⟨buf3, vh3.terminate_finished_voices, none, [],
          [(64, 100), (100, 128)], [NoteEvent.NoteOn 100 d]⟩ := by
      intro f
      rw [process_loop_succ, if_pos (by omega), he2, exbind_ok]
      dsimp only
      rw [show checkedSub 100 64 = Except.ok 36 from rfl, exbind_ok, hpb2, exbind_ok]
      dsimp only
      rw [hterm0, show min (100 + MAX_BLOCK_SIZE) 128 = 128 from rfl, hstep3 f,
        exbind_ok]
      rfl
    have hstep1 : ∀ f : Nat, process_loop sinf tauQ n2f 128 (f + 1 + 1 + 1 + 1)
        ⟨List.replicate 16 none, idc, sr, env⟩ (some (NoteEvent.NoteOn 100 d)) []
        (List.replicate 256 (0:ℚ)) 0 64
        = Except.ok ⟨buf3, vh3.terminate_finished_voices, none, [],
          [(0, 64), (64, 100), (100, 128)], [NoteEvent.NoteOn 100 d]⟩ := by
      intro f
      rw [process_loop_succ, if_pos (by omega), he1, exbind_ok]
      dsimp only
      rw [show checkedSub 64 0 = Except.ok 64 from rfl, exbind_ok, hpb1, exbind_ok]
      dsimp only
      rw [hterm0, show min (64 + MAX_BLOCK_SIZE) 128 = 128 from rfl, hstep2 f,
        exbind_ok]
      rfl
    refine ⟨⟨buf3, vh3.terminate_finished_voices, none, [],
      [(0, 64), (64, 100), (100, 128)], [NoteEvent.NoteOn 100 d]⟩, ?_, rfl, ?_⟩
    · exact hstep1 125
    · intro i hi
      constructor
      · show buf3[2 * i]? = some 0
        rw [hpb8 (2 * i) (Or.inl (by omega)), List.getElem?_replicate]
        simp only [if_pos (by omega : 2 * i < 256)]
      · show buf3[2 * i + 1]? = some 0
        rw [hpb8 (2 * i + 1) (Or.inl (by omega)), List.getElem?_replicate]
        simp only [if_pos (by omega : 2 * i + 1 < 256)]
  · intro sinf tauQ n2f vh queue buffer r h
    have h' : process_loop sinf tauQ n2f (buffer.length / 2) (buffer.length / 2 + 1)
        vh queue.head? queue.tail buffer 0
        (min (0 + MAX_BLOCK_SIZE) (buffer.length / 2)) = Except.ok r := h
    obtain ⟨-, -, -, hd, -, -, -⟩ := process_loop_ok_spec h' (by intro h0 ev _; omega)
    intro b hbmem
    obtain ⟨-, -, -, -, hshape⟩ := hd b hbmem
    rcases hshape with heq | ⟨ev, hmem, h1, h2, h3⟩
    · exact Or.inl heq
    · rw [head?_toList_append_tail] at hmem
      exact Or.inr ⟨ev, hmem, h1, h2, h3⟩

/-- Witness for C1's general clause on the empty callback. -/
theorem process_subblock_partition_witness :
    (process (fun _ => 0) 0 (fun _ => 0) ⟨List.replicate 16 none, 0, 0, []⟩ [] []
      = Except.ok ⟨[], ⟨List.replicate 16 none, 0, 0, []⟩, none, [], [], []⟩) ∧
    (∀ b ∈ (⟨[], ⟨List.replicate 16 none, 0, 0, []⟩, none, [], [], []⟩
        : ProcResult).blocks,
      b.2 = min (b.1 + MAX_BLOCK_SIZE) (([] : List ℚ).length / 2) ∨
      ∃ ev ∈ ([] : List NoteEvent), b.1 < ev.timing ∧
        ev.timing < min (b.1 + MAX_BLOCK_SIZE) (([] : List ℚ).length / 2) ∧
        b.2 = ev.timing) :=
  ⟨rfl, process_subblock_partition.2 (fun _ => 0) 0 (fun _ => 0)
    ⟨List.replicate 16 none, 0, 0, []⟩ [] [] _ rfl⟩
